import Mathlib

/-!
Verification development for the nba-betting repository.

This file gives a shallow embedding, in Lean 4, of the parts of the repository
relevant to the standings / playoff-seeding engine (`src/py/games.py`,
`src/py/teams.py`) and the player identity resolution engine
(`src/py/players.py`, `src/py/bball_reference.py`, `src/py/str_util.py`),
together with theorems settling the specification claims about those parts.

Modelling conventions:
* Python strings are modelled as `List Char` (`Str`), so that slicing and
  index errors are expressed exactly.
* Python code that can raise is modelled in the `Except Unit` (or
  `Except PlayerMatchError`) monad; `.error ()` marks a raised exception
  (`ZeroDivisionError`, `IndexError`, `TypeError`, ...).
* `float` win percentages are modelled exactly, as unnormalised fractions
  (`Frac`) compared by cross multiplication; `Frac.toRat` gives their value
  in `ℚ`.  For the win/loss counts arising in this code the `float`
  comparisons performed by the Python code agree with these exact
  comparisons.
* Functions defined by recursion on a shrinking string carry an explicit
  fuel argument, initialised to the string length, which is an upper bound
  on the number of loop iterations actually performed (each iteration drops
  at least one character); this keeps the definitions structurally
  recursive and hence directly computable by the kernel.
-/

namespace NBA

/-- Decidable equality for `Except`, needed to evaluate the embedded
functions on concrete inputs. -/
instance {ε α : Type} [DecidableEq ε] [DecidableEq α] : DecidableEq (Except ε α) := fun x y =>
  match x, y with
  | .ok a, .ok b =>
    if h : a = b then .isTrue (by rw [h]) else .isFalse (by simp [h])
  | .error a, .error b =>
    if h : a = b then .isTrue (by rw [h]) else .isFalse (by simp [h])
  | .ok _, .error _ => .isFalse (by simp)
  | .error _, .ok _ => .isFalse (by simp)

/-- Python `str`, modelled as a list of characters. -/
abbrev Str := List Char

/-- Whitespace test used by Python `str.split()` / `str.strip()` (restricted to
the whitespace characters that can actually appear in this code's data). -/
def isWs (c : Char) : Bool := c = ' ' ∨ c = '\t' ∨ c = '\n' ∨ c = '\r'

/-- Python `s.strip()`. -/
def stripWs (s : Str) : Str := ((s.dropWhile isWs).reverse.dropWhile isWs).reverse

/-- Helper for `splitWs`: accumulates the current token in reverse. -/
def splitWsAux : Str → Str → List Str
  | [], acc => if acc = [] then [] else [acc.reverse]
  | c :: rest, acc =>
    if isWs c then (if acc = [] then splitWsAux rest [] else acc.reverse :: splitWsAux rest [])
    else splitWsAux rest (c :: acc)

/-- Python `s.split()`: split on whitespace runs, dropping empty tokens. -/
def splitWs (s : Str) : List Str := splitWsAux s []

/-- Python `' '.join(tokens)`. -/
def joinSpace (tokens : List Str) : Str := List.intercalate [' '] tokens

/-! ### `src/py/str_util.py` -/

/-- Loop body of `extract_parenthesized_strs` (`str_util.py`).  The fuel is an
upper bound on the number of iterations; each iteration drops at least one
character of `s`, so `s.length` fuel is always enough. -/
def extractAux : Nat → Str → List Str
  | 0, _ => []
  | _, [] => []
  | fuel + 1, s =>
    match s.findIdx? (fun c => c = '(') with
    | none => []
    | some start =>
      match s.findIdx? (fun c => c = ')') with
      | none => []
      | some e =>
        ((s.drop (start + 1)).take (e - (start + 1))) :: extractAux fuel (s.drop (e + 1))

/-- `str_util.extract_parenthesized_strs`, with Python's `s.find` modelled by
`findIdx?` and Python slices `s[a:b]` by `drop`/`take` (an empty slice when
`b ≤ a`, exactly as in Python). -/
def extract_parenthesized_strs (s : Str) : List Str := extractAux s.length s

/-- Loop body of `remove_parenthesized_strs` (`str_util.py`). -/
def removeAux : Nat → Str → List Str
  | 0, _ => []
  | _, [] => []
  | fuel + 1, s =>
    match s.findIdx? (fun c => c = '(') with
    | none => [s]
    | some start =>
      match s.findIdx? (fun c => c = ')') with
      | none => [stripWs (s.take start)]
      | some e =>
        if e < start then removeAux fuel (s.drop (e + 1))
        else stripWs (s.take start) :: removeAux fuel (s.drop (e + 1))

/-- `str_util.remove_parenthesized_strs`. -/
def remove_parenthesized_strs (s : Str) : Str :=
  stripWs (joinSpace (removeAux s.length s))

/-! ### `src/py/players.py` -/

/-- Models the external `unidecode` transliteration library (a collaborator of
this repository, not part of it): ASCII characters map to themselves, and a
few representative accented Latin letters map to their ASCII transliterations.
None of the claims depends on the exact transliteration table; every concrete
input used in this file is ASCII, on which `unidecode` is the identity. -/
def unidecodeChar (c : Char) : Str :=
  if c = 'é' ∨ c = 'è' ∨ c = 'ê' then ['e']
  else if c = 'á' ∨ c = 'à' then ['a']
  else if c = 'ć' ∨ c = 'č' then ['c']
  else if c = 'ö' then ['o']
  else [c]

/-- `unidecode` applied to a whole string. -/
def unidecodeStr (s : Str) : Str := (s.map unidecodeChar).flatten

/-- The apostrophe-capitalisation loop of `players.normalize_player_name`:

    for i, c in enumerate(chars):
        if c == "'":
            chars[i + 1] = chars[i + 1].upper()

When a `'` is the last character, `chars[i + 1]` raises `IndexError`, which is
modelled by `.error ()`.  Uppercasing `chars[i + 1]` before the loop reaches
position `i + 1` is reflected by recursing on `c.toUpper :: rest`. -/
def capitalizeAfterApostropheAux : Nat → Str → Except Unit Str
  | _, [] => .ok []
  | 0, _ :: _ => .ok []
  | _ + 1, ['\''] => .error ()
  | fuel + 1, '\'' :: c :: rest => do
    let tail ← capitalizeAfterApostropheAux fuel (c.toUpper :: rest)
    pure ('\'' :: tail)
  | fuel + 1, c :: rest => do
    let tail ← capitalizeAfterApostropheAux fuel rest
    pure (c :: tail)

def capitalizeAfterApostrophe (s : Str) : Except Unit Str :=
  capitalizeAfterApostropheAux s.length s

/-- The per-token fix-up of `normalize_player_name`: if the second-to-last
character of a token is an apostrophe, the final two characters are
lowercased (`t[:-2] + t[-2:].lower()`), undoing the capitalisation for
single-letter post-apostrophe endings such as `Amar'e`. -/
def fixApostropheSuffix (t : Str) : Str :=
  match t.reverse with
  | c :: '\'' :: _ => t.take (t.length - 2) ++ ['\'', c.toLower]
  | _ => t

/-- The literal known-typo table at the end of `normalize_player_name`. -/
def applySpecialCases (name : Str) : Str :=
  if name = "Britton Johnson".toList then "Britton Johnsen".toList
  else if name = "Ruben Boumtje Boumtje".toList then "Ruben Boumtje-Boumtje".toList
  else name

/-- `players.normalize_player_name`.  `player_name.replace('.', '')` removes
every period; then `unidecode`; then the apostrophe-capitalisation loop (which
can raise `IndexError`); then the per-token suffix fix-up; then the
special-case table. -/
def normalize_player_name (player_name : Str) : Except Unit Str := do
  let name := unidecodeStr (player_name.filter (fun c => ¬ (c = '.')))
  let name ← capitalizeAfterApostrophe name
  let tokens := (splitWs name).map fixApostropheSuffix
  pure (applySpecialCases (joinSpace tokens))

/-! ### `src/py/players.py` / `src/py/bball_reference.py`: the player directory -/

structure Date where
  year : Nat
  month : Nat
  day : Nat
deriving DecidableEq, Repr

/-- `players.Player`.  `__eq__` and `__hash__` are defined over `url` alone;
wherever that identification matters the development either keys on `url`
or assumes pairwise-distinct URLs (`PlayerDirectory.wfUrls`). -/
structure Player where
  name : Str
  birthdate : Date
  active : Bool
  url : Str
deriving DecidableEq, Repr

/-- The error taxonomy of `bball_reference.py`: the two exception classes
`InvalidPlayerException` and `AmbiguousPlayerException`, both subclasses of
`PlayerMatchException`, are modelled as the two constructors of one error
type, each carrying the data its constructor stores or formats into the
message (the searched name(s), the searched birthdate if any, and the valid
birthdates on record, carried in key-insertion order). -/
inductive PlayerMatchError where
  | invalidPlayer (names : List Str) (birthdate : Option Date) (valid_birthdates : List Date)
  | ambiguousPlayer (name : Str) (valid_birthdates : List Date)
deriving DecidableEq, Repr

/-- `bball_reference.PlayerDirectory`, represented by the player list the
constructor crawls (`get_all_players()`), in insertion order; the `_lookup`
and `_fragments_lookup` indexes are derived views of this list. -/
structure PlayerDirectory where
  players : List Player
deriving DecidableEq, Repr

/-- `list(self._lookup[name].values())`: the players carrying the given name,
in insertion order.  When `__init__` succeeded, birthdates within a name are
pairwise distinct (`wfKeys`), so this list is exactly the birthdate-keyed
sub-dictionary of `_lookup`. -/
def PlayerDirectory.lookupName (d : PlayerDirectory) (name : Str) : List Player :=
  d.players.filter (fun p => decide (p.name = name))

/-- Pairwise-distinct profile URLs (`Player.__eq__`/`__hash__` are by `url`). -/
def PlayerDirectory.wfUrls (d : PlayerDirectory) : Prop :=
  (d.players.map (fun p => p.url)).Nodup

/-- The `Duplicate player` check of `PlayerDirectory.__init__`: the
(name, birthdate) pair is unique across the directory. -/
def PlayerDirectory.wfKeys (d : PlayerDirectory) : Prop :=
  (d.players.map (fun p => (p.name, p.birthdate))).Nodup

instance (d : PlayerDirectory) : Decidable d.wfUrls := by
  unfold PlayerDirectory.wfUrls
  infer_instance

instance (d : PlayerDirectory) : Decidable d.wfKeys := by
  unfold PlayerDirectory.wfKeys
  infer_instance

/-- `PlayerDirectory.get`. -/
def PlayerDirectory.get (d : PlayerDirectory) (name : Str) (birthdate : Option Date) :
    Except PlayerMatchError Player :=
  match d.lookupName name, birthdate with
  | [], _ => .error (.invalidPlayer [name] none [])
  | [p], none => .ok p
  | p :: q :: rest, none =>
    .error (.ambiguousPlayer name ((p :: q :: rest).map (fun r => r.birthdate)))
  | p :: rest, some bd =>
    match (p :: rest).find? (fun q => decide (q.birthdate = bd)) with
    | some q => .ok q
    | none =>
      .error (.invalidPlayer [name] (some bd) ((p :: rest).map (fun r => r.birthdate)))

/-- Whether a lookup outcome is an `InvalidPlayerException`. -/
def isInvalidError : Except PlayerMatchError Player → Bool
  | .error (.invalidPlayer _ _ _) => true
  | _ => false

/-- `self._fragments_lookup[token]`: every player, once per occurrence of the
token among the whitespace tokens of the player's name, in directory order
(`__init__` appends the player once per matching name fragment). -/
def PlayerDirectory.fragmentsLookup (d : PlayerDirectory) (token : Str) : List Player :=
  d.players.flatMap
    (fun p => ((splitWs p.name).filter (fun f => decide (f = token))).map (fun _ => p))

/-- `collections.Counter` keyed by `Player` (equality by `url`), as an
insertion-ordered association list. -/
abbrev Counter := List (Player × Nat)

def counterBump (cnt : Counter) (p : Player) : Counter :=
  match cnt with
  | [] => [(p, 1)]
  | (q, n) :: rest =>
    if q.url = p.url then (q, n + 1) :: rest else (q, n) :: counterBump rest p

def counterBumpAll (cnt : Counter) (ps : List Player) : Counter :=
  ps.foldl counterBump cnt

/-- The scoring loop of `get_candidate_matches`: for each query token,
normalise it (which can raise) and credit every indexed occurrence. -/
def scoreTokens (d : PlayerDirectory) : List Str → Counter → Except Unit Counter
  | [], cnt => .ok cnt
  | t :: ts, cnt => do
    let t' ← normalize_player_name t
    scoreTokens d ts (counterBumpAll cnt (d.fragmentsLookup t'))

/-- `PlayerDirectory.get_candidate_matches`.  Python's
`set(name_tokens + parenthesized_strs)` is modelled as first-occurrence
deduplication; the iteration order of a Python `set` is unspecified, and
every statement made about the result is insensitive to that order. -/
def PlayerDirectory.get_candidate_matches (d : PlayerDirectory) (name : Str) :
    Except Unit (List Player) := do
  let parenthesized_strs := extract_parenthesized_strs name
  let name_tokens := splitWs (remove_parenthesized_strs name)
  let direct ←
    if parenthesized_strs = [] ∧ ¬ ("/".toList ∈ name_tokens) then do
      let normalized_name ← normalize_player_name name
      pure (d.lookupName normalized_name)
    else pure []
  if direct ≠ [] then
    pure direct
  else do
    let tokens := (name_tokens ++ parenthesized_strs).dedup
    let counts ← scoreTokens d tokens []
    match counts with
    | [] => pure []
    | c :: cs =>
      let max_count := (cs.map (fun pc => pc.2)).foldl max c.2
      pure (((c :: cs).filter (fun pc => decide (pc.2 = max_count))).map (fun pc => pc.1))

/-- The total credit a player receives from a list of already-normalised
query fragments: one per occurrence of each fragment among the player's own
name tokens. -/
def occScore (p : Player) (fragments : List Str) : Nat :=
  (fragments.map (fun t => ((splitWs p.name).filter (fun f => decide (f = t))).length)).sum

/-- The score described by the resolution claim: the number of distinct
normalised query fragments that appear among the player's own name tokens
(each matching fragment counted once). -/
def claimFragmentScore (p : Player) (fragments : List Str) : Nat :=
  (fragments.dedup.filter (fun t => decide (t ∈ splitWs p.name))).length

/-! ### `src/py/teams.py` -/

/-- `teams.Team`: an immutable dataclass (`eq=True, frozen=True`).  The Python
field `abbrev` is spelled `abbr` here because `abbrev` is a Lean keyword.
The dataclass generates `__eq__`/`__hash__` but no ordering, so `Team < Team`
raises `TypeError` in Python; comparisons on `Team` are modelled accordingly
where they can occur. -/
structure Team where
  abbr : String
  full_name : String
  conference : String
  division : String
  defunct : Bool := false
deriving DecidableEq, Repr

def ATL : Team := ⟨"ATL", "Atlanta Hawks", "Eastern", "Southeast", false⟩
def BOS : Team := ⟨"BOS", "Boston Celtics", "Eastern", "Atlantic", false⟩
def BRK : Team := ⟨"BRK", "Brooklyn Nets", "Eastern", "Atlantic", false⟩
def CHI : Team := ⟨"CHI", "Chicago Bulls", "Eastern", "Central", false⟩
def CHH : Team := ⟨"CHH", "Charlotte Hornets", "Eastern", "Southeast", false⟩
def CLE : Team := ⟨"CLE", "Cleveland Cavaliers", "Eastern", "Central", false⟩
def DAL : Team := ⟨"DAL", "Dallas Mavericks", "Western", "Southwest", false⟩
def DEN : Team := ⟨"DEN", "Denver Nuggets", "Western", "Northwest", false⟩
def DET : Team := ⟨"DET", "Detroit Pistons", "Eastern", "Central", false⟩
def GSW : Team := ⟨"GSW", "Golden State Warriors", "Western", "Pacific", false⟩
def HOU : Team := ⟨"HOU", "Houston Rockets", "Western", "Southwest", false⟩
def IND : Team := ⟨"IND", "Indiana Pacers", "Eastern", "Central", false⟩
def LAC : Team := ⟨"LAC", "LA Clippers", "Western", "Pacific", false⟩
def LAL : Team := ⟨"LAL", "Los Angeles Lakers", "Western", "Pacific", false⟩
def MEM : Team := ⟨"MEM", "Memphis Grizzlies", "Western", "Southwest", false⟩
def MIA : Team := ⟨"MIA", "Miami Heat", "Eastern", "Southeast", false⟩
def MIL : Team := ⟨"MIL", "Milwaukee Bucks", "Eastern", "Central", false⟩
def MIN : Team := ⟨"MIN", "Minnesota Timberwolves", "Western", "Northwest", false⟩
def NOP : Team := ⟨"NOP", "New Orleans Pelicans", "Western", "Southwest", false⟩
def NYK : Team := ⟨"NYK", "New York Knicks", "Eastern", "Atlantic", false⟩
def OKC : Team := ⟨"OKC", "Oklahoma City Thunder", "Western", "Northwest", false⟩
def ORL : Team := ⟨"ORL", "Orlando Magic", "Eastern", "Southeast", false⟩
def PHI : Team := ⟨"PHI", "Philadelphia 76ers", "Eastern", "Atlantic", false⟩
def PHO : Team := ⟨"PHO", "Phoenix Suns", "Western", "Pacific", false⟩
def POR : Team := ⟨"POR", "Portland Trail Blazers", "Western", "Northwest", false⟩
def SAC : Team := ⟨"SAC", "Sacramento Kings", "Western", "Pacific", false⟩
def SAS : Team := ⟨"SAS", "San Antonio Spurs", "Western", "Southwest", false⟩
def TOR : Team := ⟨"TOR", "Toronto Raptors", "Eastern", "Atlantic", false⟩
def UTA : Team := ⟨"UTA", "Utah Jazz", "Western", "Northwest", false⟩
def WAS : Team := ⟨"WAS", "Washington Wizards", "Eastern", "Southeast", false⟩

def BAL : Team := ⟨"BAL", "Baltimore Bullets", "Defunct", "Defunct", true⟩
def BUF : Team := ⟨"BUF", "Buffalo Braves", "Defunct", "Defunct", true⟩
def CAP : Team := ⟨"CAP", "Capital Bullets", "Defunct", "Defunct", true⟩
def CHA : Team := ⟨"CHA", "Charlotte Bobcats", "Defunct", "Defunct", true⟩
def CIN : Team := ⟨"CIN", "Cincinnati Royals", "Defunct", "Defunct", true⟩
def KCK : Team := ⟨"KCK", "Kansas City Kings", "Defunct", "Defunct", true⟩
def NJN : Team := ⟨"NJN", "New Jersey Nets", "Defunct", "Defunct", true⟩
def NOH : Team := ⟨"NOH", "New Orleans Hornets", "Defunct", "Defunct", true⟩
def NOJ : Team := ⟨"NOJ", "New Orleans Jazz", "Defunct", "Defunct", true⟩
def NOK : Team := ⟨"NOK", "New Orleans/Oklahoma City Hornets", "Defunct", "Defunct", true⟩
def NYN : Team := ⟨"NYN", "New York Nets", "Defunct", "Defunct", true⟩
def SDC : Team := ⟨"SDC", "San Diego Clippers", "Defunct", "Defunct", true⟩
def SDR : Team := ⟨"SDR", "San Diego Rockets", "Defunct", "Defunct", true⟩
def SEA : Team := ⟨"SEA", "Seattle SuperSonics", "Defunct", "Defunct", true⟩
def SFW : Team := ⟨"SFW", "San Francisco Warriors", "Defunct", "Defunct", true⟩
def VAN : Team := ⟨"VAN", "Vancouver Grizzlies", "Defunct", "Defunct", true⟩
def WSB : Team := ⟨"WSB", "Washington Bullets", "Defunct", "Defunct", true⟩

def TEAMS : List Team :=
  [ATL, BOS, BRK, CHH, CHI, CLE, DAL, DEN, DET, GSW, HOU, IND, LAC, LAL, MEM,
   MIA, MIL, MIN, NOP, NYK, OKC, ORL, PHI, PHO, POR, SAC, SAS, TOR, UTA, WAS]

/-- `teams.DEFUNCT_TEAMS`.  Note that the source list includes the *current*
`CHH` object (the defunct Charlotte Hornets line is commented out in
`teams.py`), so `CHH` occurs both in `TEAMS` and in `DEFUNCT_TEAMS`. -/
def DEFUNCT_TEAMS : List Team :=
  [BAL, BUF, CAP, CHA, CHH, CIN, KCK, NJN, NOH, NOJ, NOK, NYN, SDC, SDR, SEA, SFW, VAN, WSB]

/-- `teams.EASTERN_CONFERENCE_TEAMS` = `TEAMS_BY_CONFERENCE['Eastern']`, built
by one pass over `TEAMS + DEFUNCT_TEAMS` in order.  Because `CHH` occurs in
both lists, this list has 16 entries with `CHH` appearing twice. -/
def EASTERN_CONFERENCE_TEAMS : List Team :=
  (TEAMS ++ DEFUNCT_TEAMS).filter (fun t => decide (t.conference = "Eastern"))

/-- `teams.WESTERN_CONFERENCE_TEAMS` (15 entries). -/
def WESTERN_CONFERENCE_TEAMS : List Team :=
  (TEAMS ++ DEFUNCT_TEAMS).filter (fun t => decide (t.conference = "Western"))

/-! ### `src/py/games.py`: `Game` -/

/-- `games.Game`, restricted to the fields the standings engine reads.
`result = some (home_score, away_score)` corresponds to a non-empty `Result`
column; `none` to a game that has not been played. -/
structure Game where
  home_team : Team
  away_team : Team
  result : Option (Int × Int)
deriving DecidableEq, Repr

def Game.completed (g : Game) : Bool := g.result.isSome

/-- `self.winner`, as assigned in `Game.__init__`:
`home if home_score > away_score else away` — so on equal scores the away
team is recorded as the winner (and also as the loser). -/
def Game.winner (g : Game) : Option Team :=
  match g.result with
  | none => none
  | some (hs, aws) => some (if aws < hs then g.home_team else g.away_team)

/-- `self.loser`: `home if home_score < away_score else away`. -/
def Game.loser (g : Game) : Option Team :=
  match g.result with
  | none => none
  | some (hs, aws) => some (if hs < aws then g.home_team else g.away_team)

/-- `self.points[t]`.  The dictionary is written home-entry first, so when the
two team fields were equal the away score would overwrite; the away team is
therefore checked first. -/
def Game.pointsOf (g : Game) (t : Team) : Option Int :=
  match g.result with
  | none => none
  | some (hs, aws) =>
    if t = g.away_team then some aws else if t = g.home_team then some hs else none

def Game.other_team (g : Game) (team : Team) : Team :=
  if g.home_team = team then g.away_team
  else if g.away_team = team then g.home_team
  else team

def Game.teams_are_in_same_conference (g : Game) : Bool :=
  decide (g.home_team.conference = g.away_team.conference)

def Game.teams_are_in_same_division (g : Game) : Bool :=
  decide (g.home_team.division = g.away_team.division)

/-- `Game.was_won_by`, with the leading
`assert self.completed and team in self.points` modelled as `.error ()`. -/
def Game.was_won_by (g : Game) (team : Team) : Except Unit Bool :=
  if g.completed ∧ (team = g.home_team ∨ team = g.away_team) then
    .ok (decide (g.winner = some team))
  else .error ()

/-- `Game.get_point_differential`, including its leading assertion. -/
def Game.get_point_differential (g : Game) (team : Team) : Except Unit Int :=
  if g.completed ∧ (team = g.home_team ∨ team = g.away_team) then
    let wpts := match g.winner with | some w => (g.pointsOf w).getD 0 | none => 0
    let lpts := match g.loser with | some l => (g.pointsOf l).getD 0 | none => 0
    let diff := wpts - lpts
    .ok (if g.winner = some team then diff else -diff)
  else .error ()

/-- Total helper used by `Record.update`, where the assertion of
`get_point_differential` is known to hold. -/
def Game.pointDiffOf (g : Game) (team : Team) : Int :=
  (g.get_point_differential team).toOption.getD 0

/-! ### `games.WinLossRecord` -/

structure WinLossRecord where
  wins : Nat
  losses : Nat
deriving DecidableEq, Repr

def WinLossRecord.update (r : WinLossRecord) (won : Bool) : WinLossRecord :=
  if won then { r with wins := r.wins + 1 } else { r with losses := r.losses + 1 }

/-- An exact, unnormalised fraction `num / den`.  Win percentages are carried
in this form so that their comparisons (by cross multiplication) are directly
computable; `Frac.toRat` recovers the rational value for specification
statements.  For the win/loss counts arising in this code the exact
comparisons coincide with the `float` comparisons Python performs. -/
structure Frac where
  num : Nat
  den : Nat
deriving DecidableEq, Repr

/-- The exact rational value of a fraction. -/
def Frac.toRat (f : Frac) : ℚ := (f.num : ℚ) / (f.den : ℚ)

/-- Equality of two stored win percentages (cross multiplication). -/
def Frac.eqv (a b : Frac) : Bool := decide (a.num * b.den = b.num * a.den)

/-- Three-way comparison of two stored win percentages (cross multiplication). -/
def Frac.cmp (a b : Frac) : Ordering :=
  if a.num * b.den < b.num * a.den then .lt
  else if b.num * a.den < a.num * b.den then .gt
  else .eq

/-- `WinLossRecord.win_pct = self.wins / (self.wins + self.losses)`.  On a
0–0 record Python raises `ZeroDivisionError`, modelled as `.error ()`; the
quotient is otherwise carried exactly as the fraction
`wins / (wins + losses)`. -/
def WinLossRecord.win_pct (r : WinLossRecord) : Except Unit Frac :=
  if r.wins + r.losses = 0 then .error ()
  else .ok ⟨r.wins, r.wins + r.losses⟩

/-- `WinLossRecord.__add__` / `__iadd__`. -/
def WinLossRecord.add (a b : WinLossRecord) : WinLossRecord :=
  ⟨a.wins + b.wins, a.losses + b.losses⟩

/-! ### `games.Record` -/

/-- `games.Record`.  The `defaultdict(WinLossRecord)` field
`win_loss_by_team` is modelled as a total function that is `0–0` off the
updated keys. -/
structure Record where
  team : Team
  overall_win_loss : WinLossRecord
  win_loss_by_team : Team → WinLossRecord
  division_win_loss : WinLossRecord
  conference_win_loss : WinLossRecord
  point_differential : Int

def Record.init (team : Team) : Record :=
  ⟨team, ⟨0, 0⟩, fun _ => ⟨0, 0⟩, ⟨0, 0⟩, ⟨0, 0⟩, 0⟩

/-- `Record.update` (`games.py`).  `Standings.__init__` only invokes it for a
completed game involving `r.team`, where `game.was_won_by(self.team)` cannot
raise; `won` is therefore computed directly from the recorded winner. -/
def Record.update (r : Record) (g : Game) : Record :=
  let won := decide (g.winner = some r.team)
  let opp := g.other_team r.team
  { r with
    overall_win_loss := r.overall_win_loss.update won
    win_loss_by_team := fun t =>
      if t = opp then (r.win_loss_by_team t).update won else r.win_loss_by_team t
    conference_win_loss :=
      if g.teams_are_in_same_conference then r.conference_win_loss.update won
      else r.conference_win_loss
    division_win_loss :=
      if g.teams_are_in_same_division then r.division_win_loss.update won
      else r.division_win_loss
    point_differential := r.point_differential + g.pointDiffOf r.team }

/-- `Record.head_to_head_record`: the sum of the per-opponent sub-records over
the given team list (`record += self.win_loss_by_team.get(team, ...)`). -/
def Record.head_to_head_record (r : Record) (teams : List Team) : WinLossRecord :=
  teams.foldl (fun acc t => acc.add (r.win_loss_by_team t)) ⟨0, 0⟩

/-! ### Python comparison semantics for tiebreaker tuples -/

/-- One element of the heterogeneous tiebreaker tuple: either a
`WinLossRecord` or the final `int` point differential. -/
inductive Component where
  | wlr (r : WinLossRecord)
  | intc (z : Int)
deriving DecidableEq, Repr

def zCompare (a b : Int) : Ordering :=
  if a < b then .lt else if b < a then .gt else .eq

/-- Comparing two tuple components the way Python's `==`/`<` do:
`WinLossRecord` comparisons evaluate both `win_pct` properties (and hence
raise `ZeroDivisionError` on a 0–0 record); `int`s compare directly;
a mixed comparison raises (`int` has no `win_pct`). -/
def compOrd : Component → Component → Except Unit Ordering
  | .wlr a, .wlr b => do
    let pa ← a.win_pct
    let pb ← b.win_pct
    pure (Frac.cmp pa pb)
  | .intc a, .intc b => .ok (zCompare a b)
  | _, _ => .error ()

/-- Python sequence comparison on tuples of components: walk the components
pairwise until the first non-equal pair decides, a longer tuple with an equal
prefix comparing greater. -/
def listOrd : List Component → List Component → Except Unit Ordering
  | [], [] => .ok .eq
  | [], _ :: _ => .ok .lt
  | _ :: _, [] => .ok .gt
  | a :: xs, b :: ys => do
    match (← compOrd a b) with
    | .eq => listOrd xs ys
    | o => .ok o

/-- Python `<` on the `(tiebreaker_tuple, team)` pairs that `_break_tie`
sorts.  When the tuples are equal and the teams differ, Python falls through
to `Team < Team`, which raises `TypeError` (the dataclass defines no
ordering); when the pairs are fully equal, `<` returns `False` without
comparing the teams. -/
def pairLt (x y : List Component × Team) : Except Unit Bool := do
  match (← listOrd x.1 y.1) with
  | .lt => pure true
  | .gt => pure false
  | .eq => if x.2 = y.2 then pure false else .error ()

/-- Insert into a descending-sorted list, comparing with `pairLt` exactly as
many times as needed.  Together with `sortDescE` this models
`sorted(..., reverse=True)`: on inputs where every performed comparison is
defined it produces the unique stable descending order, and it propagates the
first comparison exception otherwise (CPython's sort performs the same single
comparison on the two-element lists used as failing inputs below). -/
def insertDescE (x : List Component × Team) :
    List (List Component × Team) → Except Unit (List (List Component × Team))
  | [] => .ok [x]
  | y :: ys => do
    if (← pairLt x y) then do
      let rest ← insertDescE x ys
      pure (y :: rest)
    else pure (x :: y :: ys)

/-- Stable descending sort in the exception monad (see `insertDescE`). -/
def sortDescE :
    List (List Component × Team) → Except Unit (List (List Component × Team))
  | [] => .ok []
  | x :: xs => do insertDescE x (← sortDescE xs)

/-! ### `games.Standings` -/

structure PlayoffSeeding where
  east_seeding : List Team
  west_seeding : List Team
deriving DecidableEq, Repr

structure Standings where
  records : Team → Record

/-- `Standings.__init__`: fold the completed games over the initial records,
updating both participants.  (The Python code updates the home record and
then the away record; for the distinct-team games of this development that is
one update of each.) -/
def Standings.ofGames (games : List Game) : Standings :=
  ⟨games.foldl
    (fun recs g =>
      if g.completed then
        fun t =>
          if t = g.home_team then (recs t).update g
          else if t = g.away_team then (recs t).update g
          else recs t
      else recs)
    Record.init⟩

/-- `Standings._tiebreaker_tuple`.  The division component is appended only
when every team of the tied group is in the calling team's division; the
tuple is otherwise one component shorter, shifting the later components. -/
def Standings.tiebreaker_tuple (S : Standings) (team : Team)
    (tied_group own_conference_playoff_teams opposing_conference_playoff_teams : List Team) :
    List Component :=
  let record := S.records team
  let same_division := tied_group.all (fun tied_team => decide (team.division = tied_team.division))
  [Component.wlr record.overall_win_loss,
   Component.wlr (record.head_to_head_record tied_group)] ++
  (if same_division then [Component.wlr record.division_win_loss] else []) ++
  [Component.wlr record.conference_win_loss,
   Component.wlr (record.head_to_head_record own_conference_playoff_teams),
   Component.wlr (record.head_to_head_record opposing_conference_playoff_teams),
   Component.intc record.point_differential]

/-- The same tuple with the division component removed unconditionally; used
to state the division-omission claim. -/
def Standings.tiebreaker_tuple_no_division (S : Standings) (team : Team)
    (tied_group own_conference_playoff_teams opposing_conference_playoff_teams : List Team) :
    List Component :=
  let record := S.records team
  [Component.wlr record.overall_win_loss,
   Component.wlr (record.head_to_head_record tied_group),
   Component.wlr record.conference_win_loss,
   Component.wlr (record.head_to_head_record own_conference_playoff_teams),
   Component.wlr (record.head_to_head_record opposing_conference_playoff_teams),
   Component.intc record.point_differential]

/-- `Standings._break_tie`: decorate with tuples, sort descending, undecorate. -/
def Standings.break_tie (S : Standings) (tied_group own opp : List Team) :
    Except Unit (List Team) := do
  let tuple_teams := tied_group.map (fun team => (S.tiebreaker_tuple team tied_group own opp, team))
  let sorted ← sortDescE tuple_teams
  pure (sorted.map (fun p => p.2))

/-- `_break_tie` built on the division-free tuple (specification-side variant
for the division-omission claim). -/
def Standings.break_tie_no_division (S : Standings) (tied_group own opp : List Team) :
    Except Unit (List Team) := do
  let tuple_teams :=
    tied_group.map (fun team => (S.tiebreaker_tuple_no_division team tied_group own opp, team))
  let sorted ← sortDescE tuple_teams
  pure (sorted.map (fun p => p.2))

/-- Add a team to the bucket of its win percentage, appending a new bucket at
the end when none exists — the insertion-ordered `defaultdict(list)` of
`_get_tiebreaker_sets`, with the dictionary key
`Record.overall_win_loss` represented by its hash/equality class, the win
percentage. -/
def bucketAdd : List (Frac × List Team) → Frac → Team → List (Frac × List Team)
  | [], p, t => [(p, [t])]
  | (q, g) :: rest, p, t =>
    if Frac.eqv p q then (q, g ++ [t]) :: rest else (q, g) :: bucketAdd rest p t

/-- The grouping loop of `_get_tiebreaker_sets`.  Keying the dictionary on a
`WinLossRecord` first hashes it, which evaluates `win_pct` and hence raises
on a 0–0 record; two records collide exactly when their win percentages are
equal (`__eq__`/`__hash__` are defined through `win_pct`). -/
def groupTeamsAux (recs : Team → Record) :
    List Team → List (Frac × List Team) → Except Unit (List (Frac × List Team))
  | [], acc => .ok acc
  | t :: ts, acc => do
    let p ← (recs t).overall_win_loss.win_pct
    groupTeamsAux recs ts (bucketAdd acc p t)

/-- Insert a bucket before the first bucket with a strictly smaller key. -/
def bucketInsert (x : Frac × List Team) :
    List (Frac × List Team) → List (Frac × List Team)
  | [] => [x]
  | y :: ys => if Frac.cmp y.1 x.1 = .lt then x :: y :: ys else y :: bucketInsert x ys

/-- `sorted(teams_by_overall_win_loss.items(), reverse=True)`.  The buckets
carry pairwise distinct win percentages (equal percentages were merged by the
dictionary), so the sort compares them by key only and never reaches the
unorderable list payloads. -/
def sortBucketsDesc : List (Frac × List Team) → List (Frac × List Team)
  | [] => []
  | x :: xs => bucketInsert x (sortBucketsDesc xs)

/-- The accumulation loop of `_get_tiebreaker_sets`: keep whole groups until
the running count reaches 10, then stop. -/
def accumGroups : List (Frac × List Team) → Nat → List (List Team)
  | [], _ => []
  | (_, g) :: rest, n =>
    g :: (if 10 ≤ n + g.length then [] else accumGroups rest (n + g.length))

/-- `Standings._get_tiebreaker_sets`. -/
def Standings.get_tiebreaker_sets (S : Standings) (teams : List Team) :
    Except Unit (List (List Team)) := do
  let buckets ← groupTeamsAux S.records teams []
  pure (accumGroups (sortBucketsDesc buckets) 0)

/-- `List.mapM` specialised to `Except Unit`, defined by recursion for easy
inversion lemmas. -/
def mapE {α β : Type} (f : α → Except Unit β) : List α → Except Unit (List β)
  | [] => .ok []
  | x :: xs => do
    let y ← f x
    let ys ← mapE f xs
    pure (y :: ys)

/-- `Standings._break_ties`. -/
def Standings.break_ties (S : Standings) (east_groups west_groups : List (List Team)) :
    Except Unit PlayoffSeeding := do
  let east_teams := east_groups.flatten
  let west_teams := west_groups.flatten
  let east_parts ← mapE (fun g => S.break_tie g east_teams west_teams) east_groups
  let west_parts ← mapE (fun g => S.break_tie g west_teams east_teams) west_groups
  pure ⟨east_parts.flatten.take 10, west_parts.flatten.take 10⟩

/-- `Standings.playoff_seeding`. -/
def Standings.playoff_seeding (S : Standings) : Except Unit PlayoffSeeding := do
  let east_groups ← S.get_tiebreaker_sets EASTERN_CONFERENCE_TEAMS
  let west_groups ← S.get_tiebreaker_sets WESTERN_CONFERENCE_TEAMS
  S.break_ties east_groups west_groups

/-- `Standings.determine_finals_home_court_advantage`:
`team2 if tuple1 < tuple2 else team1`, where `tuple1 < tuple2` is Python
tuple comparison (short-circuiting at the first unequal component). -/
def Standings.determine_finals_home_court_advantage (S : Standings) (team1 team2 : Team) :
    Except Unit Team := do
  let tuple1 := S.tiebreaker_tuple team1 [team1, team2] [] []
  let tuple2 := S.tiebreaker_tuple team2 [team1, team2] [] []
  match (← listOrd tuple1 tuple2) with
  | .lt => pure team2
  | _ => pure team1

/-- Every two teams of the group share a division (the property the
division-record tiebreaker component is conditioned on). -/
def allSameDivision (group : List Team) : Prop :=
  ∀ t1 ∈ group, ∀ t2 ∈ group, t1.division = t2.division

instance (group : List Team) : Decidable (allSameDivision group) :=
  inferInstanceAs (Decidable (∀ t1 ∈ group, ∀ t2 ∈ group, t1.division = t2.division))

/-- `a` does not sort strictly below `b` under the `(tuple, team)` comparison
of `_break_tie` — the "descending" relation along a sorted group. -/
def tupleNotBelow (S : Standings) (tied_group own opp : List Team) (a b : Team) : Prop :=
  pairLt (S.tiebreaker_tuple a tied_group own opp, a)
    (S.tiebreaker_tuple b tied_group own opp, b) = .ok false


/-! ### Concrete instances used by witnesses and counterexamples -/

/-- Two completed games: `ATL` beat `MIA`, `BOS` beat `ORL`.  `ATL` and `BOS`
are tied at 1–0 but never played each other, so their head-to-head records
against the tied pair are 0–0. -/
def failingStandings : Standings :=
  Standings.ofGames [⟨ATL, MIA, some (1, 0)⟩, ⟨BOS, ORL, some (1, 0)⟩]

/-- Twelve completed games leaving `ATL` at 1–1 and `CHH` at 2–2 (equal win
percentage, different win–loss pairs) with every Eastern team having played. -/
def groupingGames : List Game :=
  [⟨ATL, BOS, some (1, 0)⟩, ⟨BOS, ATL, some (1, 0)⟩,
   ⟨CHH, CHI, some (1, 0)⟩, ⟨CHI, CHH, some (1, 0)⟩,
   ⟨CHH, CHI, some (2, 1)⟩, ⟨CHI, CHH, some (2, 1)⟩,
   ⟨BRK, CLE, some (1, 0)⟩, ⟨DET, IND, some (1, 0)⟩,
   ⟨MIA, MIL, some (1, 0)⟩, ⟨NYK, ORL, some (1, 0)⟩,
   ⟨PHI, TOR, some (1, 0)⟩, ⟨BRK, WAS, some (1, 0)⟩]

/-- A 46-game schedule on which the whole seeding pipeline succeeds: the ten
playoff teams of each conference end on pairwise distinct win percentages
(yielding singleton tied groups), and the remaining teams all lose every game. -/
def seedingWitnessGames : List Game :=
  [⟨ATL, DEN, some (1, 0)⟩,
   ⟨BOS, GSW, some (1, 0)⟩, ⟨BOS, HOU, some (1, 0)⟩, ⟨BOS, LAC, some (1, 0)⟩,
   ⟨BOS, LAL, some (1, 0)⟩, ⟨BOS, LAL, some (1, 0)⟩,
   ⟨BRK, MEM, some (1, 0)⟩, ⟨BRK, MIN, some (1, 0)⟩, ⟨BRK, MIN, some (1, 0)⟩,
   ⟨BRK, MIN, some (1, 0)⟩,
   ⟨CHI, NOP, some (1, 0)⟩, ⟨CHI, NOP, some (1, 0)⟩, ⟨CHI, OKC, some (1, 0)⟩,
   ⟨CLE, OKC, some (1, 0)⟩, ⟨CLE, OKC, some (1, 0)⟩,
   ⟨DET, PHO, some (1, 0)⟩, ⟨DET, PHO, some (1, 0)⟩, ⟨DET, PHO, some (1, 0)⟩,
   ⟨IND, PHO, some (1, 0)⟩,
   ⟨MIA, POR, some (1, 0)⟩, ⟨MIA, SAC, some (1, 0)⟩,
   ⟨MIL, SAS, some (1, 0)⟩,
   ⟨NYK, UTA, some (1, 0)⟩,
   ⟨DAL, BOS, some (1, 0)⟩,
   ⟨DEN, BRK, some (1, 0)⟩, ⟨DEN, CHI, some (1, 0)⟩, ⟨DEN, CLE, some (1, 0)⟩,
   ⟨DEN, DET, some (1, 0)⟩, ⟨DEN, DET, some (1, 0)⟩,
   ⟨GSW, IND, some (1, 0)⟩, ⟨GSW, MIA, some (1, 0)⟩, ⟨GSW, MIA, some (1, 0)⟩,
   ⟨GSW, MIA, some (1, 0)⟩,
   ⟨HOU, MIL, some (1, 0)⟩, ⟨HOU, MIL, some (1, 0)⟩, ⟨HOU, NYK, some (1, 0)⟩,
   ⟨LAC, NYK, some (1, 0)⟩, ⟨LAC, NYK, some (1, 0)⟩,
   ⟨LAL, CHH, some (1, 0)⟩, ⟨LAL, CHH, some (1, 0)⟩, ⟨LAL, CHH, some (1, 0)⟩,
   ⟨MEM, CHH, some (1, 0)⟩,
   ⟨MIN, ORL, some (1, 0)⟩, ⟨MIN, PHI, some (1, 0)⟩,
   ⟨NOP, TOR, some (1, 0)⟩,
   ⟨OKC, WAS, some (1, 0)⟩]

def mikeSmith : Player := ⟨"Mike Smith".toList, ⟨1990, 1, 1⟩, true, "mike1".toList⟩

def onePlayerDirectory : PlayerDirectory := ⟨[mikeSmith]⟩

/-- A second, distinct player sharing the name `Mike Smith`. -/
def mikeSmithElder : Player := ⟨"Mike Smith".toList, ⟨1970, 5, 5⟩, false, "mike2".toList⟩

def twoMikeDirectory : PlayerDirectory := ⟨[mikeSmith, mikeSmithElder]⟩

/-- A player whose name repeats a token. -/
def bobBob : Player := ⟨"Bob Bob".toList, ⟨1990, 1, 1⟩, true, "u1".toList⟩

def aliceCarol : Player := ⟨"Alice Carol".toList, ⟨1991, 2, 2⟩, true, "u2".toList⟩

def twoPlayerDirectory : PlayerDirectory := ⟨[bobBob, aliceCarol]⟩

def scoreFold (d : PlayerDirectory) (nts : List Str) (cnt : Counter) : Counter :=
  nts.foldl (fun c t => counterBumpAll c (d.fragmentsLookup t)) cnt

def counterVal (cnt : Counter) (u : Str) : Nat :=
  match cnt.find? (fun pc => decide (pc.1.url = u)) with
  | some pc => pc.2
  | none => 0

/-! ## Theorems -/

/-- **C2** (code bug).  Ordering tied teams is claimed never to raise, but on
`failingStandings` — two tied 1–0 teams that never met, a state any
in-progress season can produce — both `_break_tie` and
`determine_finals_home_court_advantage` raise `ZeroDivisionError`: the
head-to-head components are 0–0 records whose `win_pct` divides by zero when
the tuples are compared. -/
theorem c2_tie_ordering_raises_on_empty_head_to_head :
    failingStandings.break_tie [ATL, BOS] [] [] = .error () ∧
    failingStandings.determine_finals_home_court_advantage ATL BOS = .error () := by
  decide

/-- **C3** (code bug).  `normalize_player_name` is claimed total, but any
input ending in an apostrophe makes the capitalisation loop read
`chars[i + 1]` past the end of the string and raise `IndexError`. -/
theorem c3_normalize_raises_on_trailing_apostrophe :
    normalize_player_name "'".toList = .error () ∧
    normalize_player_name "Amar'".toList = .error () := by
  decide

/-- **C4** (counterexample).  `Mike Smith` is on record with exactly one
birthdate (1990-01-01), yet supplying the non-matching birthdate 1991-01-01
does not return that unique player: `get` raises `InvalidPlayerException`. -/
theorem c4_mismatched_birthdate_counterexample :
    onePlayerDirectory.get "Mike Smith".toList (some ⟨1991, 1, 1⟩) =
      .error (.invalidPlayer ["Mike Smith".toList] (some ⟨1991, 1, 1⟩) [⟨1990, 1, 1⟩]) := by
  decide

/-- **C4** (amended).  For a name on record with exactly one birthdate,
`get` returns that unique player when no birthdate is supplied or when the
recorded birthdate is supplied; supplying any other birthdate raises
`InvalidPlayerException` carrying the valid birthdate. -/
theorem c4_amended_unique_name_lookup
    (d : PlayerDirectory) (name : Str) (p : Player)
    (h : d.lookupName name = [p]) :
    d.get name none = .ok p ∧
    d.get name (some p.birthdate) = .ok p ∧
    ∀ b : Date, b ≠ p.birthdate →
      d.get name (some b) = .error (.invalidPlayer [name] (some b) [p.birthdate]) := by
  refine ⟨?_, ?_, ?_⟩
  · unfold PlayerDirectory.get
    rw [h]
  · unfold PlayerDirectory.get
    rw [h]
    simp [List.find?]
  · intro b hb
    unfold PlayerDirectory.get
    rw [h]
    simp [List.find?, hb, Ne.symm hb]

theorem c4_amended_unique_name_lookup_witness :
    onePlayerDirectory.lookupName "Mike Smith".toList = [mikeSmith] ∧
    onePlayerDirectory.get "Mike Smith".toList none = .ok mikeSmith :=
  ⟨by decide,
   (c4_amended_unique_name_lookup onePlayerDirectory "Mike Smith".toList mikeSmith
      (by decide)).1⟩

/-- **C1** (counterexample).  On `groupingGames`, `ATL` finishes 1–1 and
`CHH` 2–2 — different (wins, losses) pairs — yet the grouping step of
`_get_tiebreaker_sets` places them in the *same* tied group, because
`WinLossRecord.__eq__`/`__hash__` compare `win_pct` (½ = ½), not the pair.
(`CHH` appears twice in the group because `EASTERN_CONFERENCE_TEAMS` lists it
twice; see `EASTERN_CONFERENCE_TEAMS`.) -/
theorem c1_grouping_uses_win_pct_counterexample :
    groupTeamsAux (Standings.ofGames groupingGames).records EASTERN_CONFERENCE_TEAMS [] =
      .ok [(⟨1, 2⟩, [ATL, BOS, CHH, CHI, CHH]),
           (⟨2, 2⟩, [BRK, DET, MIA, NYK, PHI]),
           (⟨0, 1⟩, [CLE, IND, MIL, ORL, TOR, WAS])] ∧
    ((Standings.ofGames groupingGames).records ATL).overall_win_loss = ⟨1, 1⟩ ∧
    ((Standings.ofGames groupingGames).records CHH).overall_win_loss = ⟨2, 2⟩ := by
  decide

/-- **C6** (counterexample).  `playoff_seeding` does not return a seeding for
every set of completed games: on the empty set every record is 0–0, and
grouping the teams hashes those records, which evaluates `win_pct` and raises
`ZeroDivisionError`. -/
theorem c6_seeding_raises_on_empty_games :
    (Standings.ofGames []).playoff_seeding = .error () := by decide

/-- **C7** (counterexample).  On the query `Bob (Alice) (Carol)` against a
directory holding `Bob Bob` and `Alice Carol`, the code returns *both*
players (the fragment `Bob` is indexed twice for `Bob Bob`, so the counter
credits him 2), although the claim's score — the count of distinct query
fragments appearing among a player's name tokens — is 1 for `Bob Bob` and 2
for `Alice Carol`: the returned set is not the set of players tied at the
maximum of the claimed score. -/
theorem c7_fragment_scoring_counterexample :
    twoPlayerDirectory.get_candidate_matches "Bob (Alice) (Carol)".toList =
      .ok [bobBob, aliceCarol] ∧
    claimFragmentScore bobBob ["Bob".toList, "Alice".toList, "Carol".toList] = 1 ∧
    claimFragmentScore aliceCarol ["Bob".toList, "Alice".toList, "Carol".toList] = 2 := by
  decide

/-- **C9.**  For every completed game — any home/away point totals, equal
totals included — the point differential is antisymmetric and exactly one of
the two (distinct) participating teams satisfies `was_won_by`. -/
theorem c9_point_differential_antisymmetry
    (home away : Team) (hs aws : Int) (hne : home ≠ away) :
    (∃ d : Int,
      (Game.mk home away (some (hs, aws))).get_point_differential home = .ok d ∧
      (Game.mk home away (some (hs, aws))).get_point_differential away = .ok (-d)) ∧
    (∃ b : Bool,
      (Game.mk home away (some (hs, aws))).was_won_by home = .ok b ∧
      (Game.mk home away (some (hs, aws))).was_won_by away = .ok (!b)) := by
  have hne2 : away ≠ home := hne.symm
  by_cases h1 : aws < hs
  · refine ⟨⟨hs - aws, ?_, ?_⟩, ⟨true, ?_, ?_⟩⟩ <;>
      simp [Game.get_point_differential, Game.was_won_by, Game.completed, Game.winner,
            Game.loser, Game.pointsOf, h1, hne, hne2, not_lt.mpr (le_of_lt h1)]
  · by_cases h2 : hs < aws
    · refine ⟨⟨hs - aws, ?_, ?_⟩, ⟨false, ?_, ?_⟩⟩ <;>
        simp [Game.get_point_differential, Game.was_won_by, Game.completed, Game.winner,
              Game.loser, Game.pointsOf, h1, h2, hne, hne2]
    · have h3 : hs = aws := le_antisymm (not_lt.mp h1) (not_lt.mp h2)
      refine ⟨⟨hs - aws, ?_, ?_⟩, ⟨false, ?_, ?_⟩⟩ <;>
        simp [Game.get_point_differential, Game.was_won_by, Game.completed, Game.winner,
              Game.loser, Game.pointsOf, h1, h2, h3, hne, hne2]

theorem c9_point_differential_antisymmetry_witness :
    ATL ≠ BOS ∧
    (∃ d : Int,
      (Game.mk ATL BOS (some (100, 90))).get_point_differential ATL = .ok d ∧
      (Game.mk ATL BOS (some (100, 90))).get_point_differential BOS = .ok (-d)) :=
  ⟨by decide, (c9_point_differential_antisymmetry ATL BOS 100 90 (by decide)).1⟩

/-- Cross-multiplication order agrees with the rational order of the values
when both denominators are positive. -/
theorem Frac.toRat_lt_iff (a b : Frac) (ha : 0 < a.den) (hb : 0 < b.den) :
    a.toRat < b.toRat ↔ a.num * b.den < b.num * a.den := by
  unfold Frac.toRat
  rw [div_lt_div_iff₀ (by exact_mod_cast ha) (by exact_mod_cast hb)]
  exact_mod_cast Iff.rfl

/-- Cross-multiplication equality agrees with equality of the rational values
when both denominators are positive. -/
theorem Frac.toRat_eq_iff (a b : Frac) (ha : 0 < a.den) (hb : 0 < b.den) :
    a.toRat = b.toRat ↔ a.num * b.den = b.num * a.den := by
  unfold Frac.toRat
  rw [div_eq_div_iff (by exact_mod_cast ha.ne') (by exact_mod_cast hb.ne')]
  exact_mod_cast Iff.rfl

/-- A successfully computed win percentage has a positive denominator. -/
theorem WinLossRecord.win_pct_den_pos (r : WinLossRecord) (f : Frac)
    (h : r.win_pct = .ok f) : 0 < f.den := by
  unfold WinLossRecord.win_pct at h
  split at h
  · cases h
  · next hne =>
    cases h
    exact Nat.pos_of_ne_zero hne

/-- **C10.**  The tiebreaker tuple carries the overall win–loss record as an
extra first component, ahead of the head-to-head component (the spec's
cascade a–f starts at head-to-head); consequently
`determine_finals_home_court_advantage` awards home court to the team with
the strictly higher overall win percentage whenever the two differ.  The
conclusion is `.ok` with no hypothesis on any later component — the later
components may even be 0–0 records whose comparison would raise — which is
exactly the short-circuiting the claim describes. -/
theorem c10_overall_record_first_component
    (S : Standings) (t1 t2 : Team) (group own opp : List Team) (f1 f2 : Frac)
    (h1 : (S.records t1).overall_win_loss.win_pct = .ok f1)
    (h2 : (S.records t2).overall_win_loss.win_pct = .ok f2)
    (hne : f1.toRat ≠ f2.toRat) :
    (S.tiebreaker_tuple t1 group own opp).head? =
        some (Component.wlr (S.records t1).overall_win_loss) ∧
    (S.tiebreaker_tuple t1 group own opp).tail.head? =
        some (Component.wlr ((S.records t1).head_to_head_record group)) ∧
    S.determine_finals_home_court_advantage t1 t2 =
      .ok (if f1.toRat < f2.toRat then t2 else t1) := by
  have hd1 : 0 < f1.den := WinLossRecord.win_pct_den_pos _ _ h1
  have hd2 : 0 < f2.den := WinLossRecord.win_pct_den_pos _ _ h2
  refine ⟨by simp [Standings.tiebreaker_tuple], by simp [Standings.tiebreaker_tuple], ?_⟩
  unfold Standings.determine_finals_home_court_advantage Standings.tiebreaker_tuple
  rcases lt_trichotomy f1.toRat f2.toRat with hlt | heq | hgt
  · have hc : Frac.cmp f1 f2 = .lt := by
      unfold Frac.cmp
      rw [if_pos ((Frac.toRat_lt_iff f1 f2 hd1 hd2).mp hlt)]
    simp [listOrd, compOrd, h1, h2, hc, hlt, Bind.bind, Except.bind, pure, Except.pure]
  · exact absurd heq hne
  · have hc : Frac.cmp f1 f2 = .gt := by
      unfold Frac.cmp
      rw [if_neg, if_pos ((Frac.toRat_lt_iff f2 f1 hd2 hd1).mp hgt)]
      exact fun hcon =>
        absurd ((Frac.toRat_lt_iff f1 f2 hd1 hd2).mpr hcon) (not_lt.mpr (le_of_lt hgt))
    simp [listOrd, compOrd, h1, h2, hc, not_lt.mpr (le_of_lt hgt), Bind.bind, Except.bind, pure,
      Except.pure]

theorem c10_overall_record_first_component_witness :
    (failingStandings.records ATL).overall_win_loss.win_pct = .ok ⟨1, 1⟩ ∧
    (failingStandings.records MIA).overall_win_loss.win_pct = .ok ⟨0, 1⟩ ∧
    failingStandings.determine_finals_home_court_advantage ATL MIA = .ok ATL := by
  refine ⟨by decide, by decide, ?_⟩
  have h := (c10_overall_record_first_component failingStandings ATL MIA [ATL, MIA] [] []
      ⟨1, 1⟩ ⟨0, 1⟩ (by decide) (by decide) (by simp [Frac.toRat])).2.2
  rw [if_neg (by simp [Frac.toRat])] at h
  exact h

/-- For a member of the tied group, the `all` test of `_tiebreaker_tuple`
holds exactly when the whole group shares one division. -/
theorem all_division_iff (group : List Team) (team : Team) (hmem : team ∈ group) :
    (group.all (fun tied_team => decide (team.division = tied_team.division)) = true) ↔
      allSameDivision group := by
  simp only [List.all_eq_true, decide_eq_true_eq, allSameDivision]
  constructor
  · intro h t1 h1 t2 h2
    rw [← h t1 h1, ← h t2 h2]
  · intro h x hx
    exact h team hmem x hx

/-- **C5.**  The division-record component is present in a group member's
tiebreaker tuple (in third position, shifting all later components) exactly
when every team of the tied group shares one division; otherwise it is
literally absent for every member, and `_break_tie` coincides with the
variant computed with the component entirely removed. -/
theorem c5_division_component_inclusion (S : Standings) (group own opp : List Team) :
    (allSameDivision group → ∀ team ∈ group,
      S.tiebreaker_tuple team group own opp =
        [Component.wlr (S.records team).overall_win_loss,
         Component.wlr ((S.records team).head_to_head_record group),
         Component.wlr (S.records team).division_win_loss,
         Component.wlr (S.records team).conference_win_loss,
         Component.wlr ((S.records team).head_to_head_record own),
         Component.wlr ((S.records team).head_to_head_record opp),
         Component.intc (S.records team).point_differential]) ∧
    (¬ allSameDivision group →
      (∀ team ∈ group,
        S.tiebreaker_tuple team group own opp =
          S.tiebreaker_tuple_no_division team group own opp) ∧
      S.break_tie group own opp = S.break_tie_no_division group own opp) := by
  constructor
  · intro hall team hmem
    have hb : group.all (fun tied_team => decide (team.division = tied_team.division)) = true :=
      (all_division_iff group team hmem).mpr hall
    simp [Standings.tiebreaker_tuple, hb]
  · intro hnall
    have htup : ∀ team ∈ group,
        S.tiebreaker_tuple team group own opp =
          S.tiebreaker_tuple_no_division team group own opp := by
      intro team hmem
      have hb : group.all (fun tied_team => decide (team.division = tied_team.division)) = false := by
        rcases Bool.eq_false_or_eq_true
            (group.all (fun tied_team => decide (team.division = tied_team.division))) with h | h
        · exact absurd ((all_division_iff group team hmem).mp h) hnall
        · exact h
      simp [Standings.tiebreaker_tuple, Standings.tiebreaker_tuple_no_division, hb]
    refine ⟨htup, ?_⟩
    unfold Standings.break_tie Standings.break_tie_no_division
    have hmap : group.map (fun team => (S.tiebreaker_tuple team group own opp, team)) =
        group.map (fun team => (S.tiebreaker_tuple_no_division team group own opp, team)) := by
      apply List.map_congr_left
      intro t ht
      rw [htup t ht]
    rw [hmap]

theorem c5_division_component_inclusion_witness :
    ¬ allSameDivision [ATL, MIA, BOS] ∧
    failingStandings.break_tie [ATL, MIA, BOS] [] [] =
      failingStandings.break_tie_no_division [ATL, MIA, BOS] [] [] :=
  ⟨by decide, ((c5_division_component_inclusion failingStandings [ATL, MIA, BOS] [] []).2
      (by decide)).2⟩

/-- **C8.**  `get` raises `AmbiguousPlayerException` — carrying the candidate
birthdates — exactly when the name is on record with two or more birthdates
and no birthdate argument was supplied; it raises `InvalidPlayerException`
exactly when the name is not on record at all, or a birthdate was supplied
matching no record for the name (then carrying the valid birthdates on
record).  The two exception classes are the two constructors of the common
`PlayerMatchError` type, mirroring their common Python base class
`PlayerMatchException`.  Under `wfKeys` (the `Duplicate player` check of
`__init__`), the entries for a name are in bijection with its recorded
birthdates. -/
theorem c8_get_error_taxonomy (d : PlayerDirectory) (name : Str) (bd : Option Date)
    (_hwf : d.wfKeys) :
    (d.get name bd =
        .error (.ambiguousPlayer name ((d.lookupName name).map (fun p => p.birthdate))) ↔
      2 ≤ (d.lookupName name).length ∧ bd = none) ∧
    (isInvalidError (d.get name bd) = true ↔
      d.lookupName name = [] ∨
        ∃ b, bd = some b ∧ b ∉ (d.lookupName name).map (fun p => p.birthdate)) ∧
    (d.lookupName name = [] → d.get name bd = .error (.invalidPlayer [name] none [])) ∧
    (∀ b, bd = some b → d.lookupName name ≠ [] →
      b ∉ (d.lookupName name).map (fun p => p.birthdate) →
      d.get name bd = .error (.invalidPlayer [name] (some b)
        ((d.lookupName name).map (fun p => p.birthdate)))) := by
  rcases hsub : d.lookupName name with _ | ⟨p, rest⟩
  · cases bd <;> simp [PlayerDirectory.get, hsub, isInvalidError]
  · rcases rest with _ | ⟨q, rest2⟩
    · cases bd with
      | none => simp [PlayerDirectory.get, hsub, isInvalidError]
      | some b =>
        by_cases hb : p.birthdate = b
        · simp [PlayerDirectory.get, hsub, isInvalidError, List.find?, hb]
        · simp [PlayerDirectory.get, hsub, isInvalidError, List.find?, hb, Ne.symm hb]
    · cases bd with
      | none => simp [PlayerDirectory.get, hsub, isInvalidError]
      | some b =>
        rcases hfind : (p :: q :: rest2).find? (fun r => decide (r.birthdate = b)) with _ | r
        · have hnone : ∀ x ∈ p :: q :: rest2, ¬ x.birthdate = b := by
            have h2 := hfind
            rw [List.find?_eq_none] at h2
            intro x hx
            simpa using h2 x hx
          have hmem : ¬ b ∈ (p :: q :: rest2).map (fun r => r.birthdate) := by
            simp only [List.mem_map]
            rintro ⟨x, hx, hxb⟩
            exact hnone x hx hxb
          simp only [PlayerDirectory.get, hsub, isInvalidError, hfind, hmem]
          simp
          refine ⟨fun h => hnone p (by simp) h.symm, fun h => hnone q (by simp) h.symm,
            fun x hx h => hnone x (by simp [hx]) h⟩
        · have hmem : b ∈ (p :: q :: rest2).map (fun r => r.birthdate) := by
            have := List.find?_some hfind
            have hmem2 := List.mem_of_find?_eq_some hfind
            simp only [decide_eq_true_eq] at this
            exact List.mem_map.mpr ⟨r, hmem2, this⟩
          simp only [PlayerDirectory.get, hsub, isInvalidError, hfind, hmem]
          simp
          intro hp hq
          rcases List.mem_map.mp hmem with ⟨x, hx, hxb⟩
          rcases List.mem_cons.mp hx with rfl | hx2
          · exact absurd hxb.symm hp
          · rcases List.mem_cons.mp hx2 with rfl | hx3
            · exact absurd hxb.symm hq
            · exact ⟨x, hx3, hxb⟩

theorem c8_get_error_taxonomy_witness :
    twoMikeDirectory.wfKeys ∧
    twoMikeDirectory.get "Mike Smith".toList none =
      .error (.ambiguousPlayer "Mike Smith".toList
        ((twoMikeDirectory.lookupName "Mike Smith".toList).map (fun p => p.birthdate))) :=
  ⟨by decide,
   ((c8_get_error_taxonomy twoMikeDirectory "Mike Smith".toList none (by decide)).1).mpr
     ⟨by decide, rfl⟩⟩

/-! ### Lemmas about exact win-percentage comparisons and the grouping step -/

theorem Frac.cmp_eq_lt_iff (a b : Frac) (ha : 0 < a.den) (hb : 0 < b.den) :
    Frac.cmp a b = .lt ↔ a.toRat < b.toRat := by
  rw [Frac.toRat_lt_iff a b ha hb]
  unfold Frac.cmp
  by_cases h1 : a.num * b.den < b.num * a.den
  · simp [h1]
  · by_cases h2 : b.num * a.den < a.num * b.den
    · simp [h1, h2]
    · simp [h1, h2]

theorem Frac.cmp_eq_gt_iff (a b : Frac) (ha : 0 < a.den) (hb : 0 < b.den) :
    Frac.cmp a b = .gt ↔ b.toRat < a.toRat := by
  rw [Frac.toRat_lt_iff b a hb ha]
  unfold Frac.cmp
  by_cases h1 : a.num * b.den < b.num * a.den
  · simp [h1]
    omega
  · by_cases h2 : b.num * a.den < a.num * b.den
    · simp [h1, h2]
    · simp [h1, h2]

theorem Frac.cmp_eq_eq_iff (a b : Frac) (ha : 0 < a.den) (hb : 0 < b.den) :
    Frac.cmp a b = .eq ↔ a.toRat = b.toRat := by
  rw [Frac.toRat_eq_iff a b ha hb]
  unfold Frac.cmp
  by_cases h1 : a.num * b.den < b.num * a.den
  · simp [h1]
    omega
  · by_cases h2 : b.num * a.den < a.num * b.den
    · simp [h1, h2]
      omega
    · simp [h1, h2]
      omega

theorem Frac.eqv_true_iff (a b : Frac) (ha : 0 < a.den) (hb : 0 < b.den) :
    Frac.eqv a b = true ↔ a.toRat = b.toRat := by
  rw [Frac.toRat_eq_iff a b ha hb]
  unfold Frac.eqv
  simp

theorem pairwise_ne_mem_eq {α : Type} {R : α → α → Prop} {l : List α}
    (hl : l.Pairwise R) {a b : α} (ha : a ∈ l) (hb : b ∈ l)
    (hab : ¬ R a b) (hba : ¬ R b a) : a = b := by
  induction l with
  | nil => cases ha
  | cons x xs ih =>
    rcases List.pairwise_cons.mp hl with ⟨hx, hxs⟩
    rcases List.mem_cons.mp ha with rfl | ha2
    · rcases List.mem_cons.mp hb with rfl | hb2
      · rfl
      · exact absurd (hx b hb2) hab
    · rcases List.mem_cons.mp hb with rfl | hb2
      · exact absurd (hx a ha2) hba
      · exact ih hxs ha2 hb2

theorem bucketAdd_key_mem (p : Frac) (t : Team) :
    ∀ (acc : List (Frac × List Team)), ∀ b ∈ bucketAdd acc p t,
      b.1 ∈ acc.map (fun pr => pr.1) ∨ b.1 = p := by
  intro acc
  induction acc with
  | nil =>
    intro b hb
    simp [bucketAdd] at hb
    simp [hb]
  | cons hd rest ih =>
    intro b hb
    rcases hd with ⟨q, g⟩
    unfold bucketAdd at hb
    split at hb
    · rcases List.mem_cons.mp hb with rfl | hb2
      · simp
      · rw [List.map_cons]
        exact Or.inl (List.mem_cons.mpr (Or.inr (List.mem_map.mpr ⟨b, hb2, rfl⟩)))
    · rcases List.mem_cons.mp hb with rfl | hb2
      · simp
      · rcases ih b hb2 with h3 | h3
        · rw [List.map_cons]
          exact Or.inl (List.mem_cons.mpr (Or.inr h3))
        · exact Or.inr h3

theorem bucketAdd_keyOk (recs : Team → Record) (t : Team) (p : Frac)
    (hp : (recs t).overall_win_loss.win_pct = .ok p) :
    ∀ (acc : List (Frac × List Team)),
    (∀ pr ∈ acc, 0 < pr.1.den ∧
      ∀ x ∈ pr.2, ∃ fx, (recs x).overall_win_loss.win_pct = .ok fx ∧ fx.toRat = pr.1.toRat) →
    ∀ pr ∈ bucketAdd acc p t, 0 < pr.1.den ∧
      ∀ x ∈ pr.2, ∃ fx, (recs x).overall_win_loss.win_pct = .ok fx ∧ fx.toRat = pr.1.toRat := by
  have hpden : 0 < p.den := WinLossRecord.win_pct_den_pos _ _ hp
  intro acc
  induction acc with
  | nil =>
    intro _ pr hpr
    simp [bucketAdd] at hpr
    subst hpr
    exact ⟨hpden, fun x hx => by
      rcases List.mem_singleton.mp hx with rfl
      exact ⟨p, hp, rfl⟩⟩
  | cons hd rest ih =>
    intro hinv pr hpr
    rcases hd with ⟨q, g⟩
    have hq := hinv (q, g) (List.mem_cons_self _ _)
    unfold bucketAdd at hpr
    split at hpr
    · next he =>
      rcases List.mem_cons.mp hpr with rfl | hpr2
      · refine ⟨hq.1, fun x hx => ?_⟩
        rcases List.mem_append.mp hx with hx1 | hx2
        · exact hq.2 x hx1
        · rcases List.mem_singleton.mp hx2 with rfl
          refine ⟨p, hp, ?_⟩
          exact (Frac.toRat_eq_iff p q hpden hq.1).mpr (by simpa [Frac.eqv] using he)
      · exact hinv pr (List.mem_cons_of_mem _ hpr2)
    · rcases List.mem_cons.mp hpr with rfl | hpr2
      · exact hq
      · exact ih (fun b hb => hinv b (List.mem_cons_of_mem _ hb)) pr hpr2

theorem bucketAdd_pairwise (p : Frac) (t : Team) (hpden : 0 < p.den) :
    ∀ (acc : List (Frac × List Team)),
    (∀ pr ∈ acc, 0 < pr.1.den) →
    acc.Pairwise (fun a b => a.1.toRat ≠ b.1.toRat) →
    (bucketAdd acc p t).Pairwise (fun a b => a.1.toRat ≠ b.1.toRat) := by
  intro acc
  induction acc with
  | nil =>
    intro _ _
    simp [bucketAdd]
  | cons hd rest ih =>
    intro hden hpw
    rcases hd with ⟨q, g⟩
    rcases List.pairwise_cons.mp hpw with ⟨hq, hrest⟩
    unfold bucketAdd
    split
    · exact List.pairwise_cons.mpr ⟨fun b hb => hq b hb, hrest⟩
    · next he =>
      refine List.pairwise_cons.mpr ⟨?_, ih (fun b hb => hden b (List.mem_cons_of_mem _ hb)) hrest⟩
      intro b hb
      rcases bucketAdd_key_mem p t rest b hb with h3 | h3
      · rcases List.mem_map.mp h3 with ⟨pr, hpr, hkey⟩
        rw [← hkey]
        exact hq pr hpr
      · rw [h3]
        have hqden : 0 < q.den := hden (q, g) (List.mem_cons_self _ _)
        intro hcon
        have : Frac.eqv p q = true :=
          (Frac.eqv_true_iff p q hpden hqden).mpr hcon.symm
        exact he this

theorem bucketAdd_mem_new (p : Frac) (t : Team) :
    ∀ (acc : List (Frac × List Team)), ∃ b ∈ bucketAdd acc p t, t ∈ b.2 := by
  intro acc
  induction acc with
  | nil => exact ⟨(p, [t]), by simp [bucketAdd]⟩
  | cons hd rest ih =>
    rcases hd with ⟨q, g⟩
    unfold bucketAdd
    split
    · exact ⟨(q, g ++ [t]), List.mem_cons_self _ _, by simp⟩
    · rcases ih with ⟨b, hb, htb⟩
      exact ⟨b, List.mem_cons_of_mem _ hb, htb⟩

theorem bucketAdd_mem_old (p : Frac) (t : Team) (x : Team) :
    ∀ (acc : List (Frac × List Team)),
    (∃ b ∈ acc, x ∈ b.2) → ∃ b ∈ bucketAdd acc p t, x ∈ b.2 := by
  intro acc
  induction acc with
  | nil => rintro ⟨b, hb, _⟩; cases hb
  | cons hd rest ih =>
    rintro ⟨b, hb, hxb⟩
    rcases hd with ⟨q, g⟩
    unfold bucketAdd
    split
    · rcases List.mem_cons.mp hb with rfl | hb2
      · exact ⟨(q, g ++ [t]), List.mem_cons_self _ _, List.mem_append.mpr (Or.inl hxb)⟩
      · exact ⟨b, List.mem_cons_of_mem _ hb2, hxb⟩
    · rcases List.mem_cons.mp hb with rfl | hb2
      · exact ⟨(q, g), List.mem_cons_self _ _, hxb⟩
      · rcases ih ⟨b, hb2, hxb⟩ with ⟨b2, hb2m, hxb2⟩
        exact ⟨b2, List.mem_cons_of_mem _ hb2m, hxb2⟩

theorem groupTeamsAux_ok (recs : Team → Record) :
    ∀ (ts : List Team) (acc buckets : List (Frac × List Team)),
    groupTeamsAux recs ts acc = .ok buckets →
    (∀ pr ∈ acc, 0 < pr.1.den ∧
      ∀ x ∈ pr.2, ∃ fx, (recs x).overall_win_loss.win_pct = .ok fx ∧ fx.toRat = pr.1.toRat) →
    acc.Pairwise (fun a b => a.1.toRat ≠ b.1.toRat) →
    ((∀ pr ∈ buckets, 0 < pr.1.den ∧
        ∀ x ∈ pr.2, ∃ fx, (recs x).overall_win_loss.win_pct = .ok fx ∧ fx.toRat = pr.1.toRat) ∧
      buckets.Pairwise (fun a b => a.1.toRat ≠ b.1.toRat) ∧
      (∀ t ∈ ts, ∃ b ∈ buckets, t ∈ b.2) ∧
      (∀ x : Team, (∃ b ∈ acc, x ∈ b.2) → ∃ b ∈ buckets, x ∈ b.2)) := by
  intro ts
  induction ts with
  | nil =>
    intro acc buckets h hinv hpw
    cases h
    exact ⟨hinv, hpw, by simp, fun x hx => hx⟩
  | cons t ts ih =>
    intro acc buckets h hinv hpw
    unfold groupTeamsAux at h
    rcases hp : (recs t).overall_win_loss.win_pct with _ | p
    · rw [hp] at h
      cases h
    · rw [hp] at h
      simp only [Bind.bind, Except.bind] at h
      have hpden : 0 < p.den := WinLossRecord.win_pct_den_pos _ _ hp
      have hik := ih (bucketAdd acc p t) buckets h
        (bucketAdd_keyOk recs t p hp acc hinv)
        (bucketAdd_pairwise p t hpden acc (fun pr hpr => (hinv pr hpr).1) hpw)
      refine ⟨hik.1, hik.2.1, ?_, ?_⟩
      · intro x hx
        rcases List.mem_cons.mp hx with rfl | hx2
        · exact hik.2.2.2 x (bucketAdd_mem_new p x acc)
        · exact hik.2.2.1 x hx2
      · intro x hx
        exact hik.2.2.2 x (bucketAdd_mem_old p t x acc hx)

theorem bucketInsert_perm (x : Frac × List Team) :
    ∀ (l : List (Frac × List Team)), (bucketInsert x l).Perm (x :: l) := by
  intro l
  induction l with
  | nil => simp [bucketInsert]
  | cons y ys ih =>
    unfold bucketInsert
    split
    · exact List.Perm.refl _
    · exact ((ih.cons y).trans (List.Perm.swap x y ys))

theorem sortBucketsDesc_perm :
    ∀ (l : List (Frac × List Team)), (sortBucketsDesc l).Perm l := by
  intro l
  induction l with
  | nil => simp [sortBucketsDesc]
  | cons x xs ih =>
    unfold sortBucketsDesc
    exact (bucketInsert_perm x (sortBucketsDesc xs)).trans (ih.cons x)

theorem bucketInsert_pairwise (x : Frac × List Team) :
    ∀ (l : List (Frac × List Team)),
    0 < x.1.den → (∀ a ∈ l, 0 < a.1.den) →
    (∀ a ∈ l, a.1.toRat ≠ x.1.toRat) →
    l.Pairwise (fun a b => b.1.toRat < a.1.toRat) →
    (bucketInsert x l).Pairwise (fun a b => b.1.toRat < a.1.toRat) := by
  intro l
  induction l with
  | nil =>
    intro _ _ _ _
    simp [bucketInsert]
  | cons y ys ih =>
    intro hx hld hne hpw
    rcases List.pairwise_cons.mp hpw with ⟨hy, hys⟩
    have hyd : 0 < y.1.den := hld y (List.mem_cons_self _ _)
    unfold bucketInsert
    split
    · next hcmp =>
      have hylt : y.1.toRat < x.1.toRat := (Frac.cmp_eq_lt_iff y.1 x.1 hyd hx).mp hcmp
      refine List.pairwise_cons.mpr ⟨?_, hpw⟩
      intro b hb
      rcases List.mem_cons.mp hb with rfl | hb2
      · exact hylt
      · exact lt_trans (hy b hb2) hylt
    · next hcmp =>
      have hxlty : x.1.toRat < y.1.toRat := by
        rcases hv : Frac.cmp y.1 x.1 with _ | _ | _
        · exact absurd hv hcmp
        · exact absurd ((Frac.cmp_eq_eq_iff y.1 x.1 hyd hx).mp hv)
            (hne y (List.mem_cons_self _ _))
        · exact (Frac.cmp_eq_gt_iff y.1 x.1 hyd hx).mp hv
      refine List.pairwise_cons.mpr ⟨?_, ih hx (fun a ha => hld a (List.mem_cons_of_mem _ ha))
        (fun a ha => hne a (List.mem_cons_of_mem _ ha)) hys⟩
      intro b hb
      have hb2 : b ∈ x :: ys := (bucketInsert_perm x ys).mem_iff.mp hb
      rcases List.mem_cons.mp hb2 with rfl | hb3
      · exact hxlty
      · exact hy b hb3

theorem sortBucketsDesc_pairwise :
    ∀ (l : List (Frac × List Team)),
    (∀ a ∈ l, 0 < a.1.den) →
    l.Pairwise (fun a b => a.1.toRat ≠ b.1.toRat) →
    (sortBucketsDesc l).Pairwise (fun a b => b.1.toRat < a.1.toRat) := by
  intro l
  induction l with
  | nil =>
    intro _ _
    simp [sortBucketsDesc]
  | cons x xs ih =>
    intro hld hpw
    rcases List.pairwise_cons.mp hpw with ⟨hx, hxs⟩
    unfold sortBucketsDesc
    apply bucketInsert_pairwise
    · exact hld x (List.mem_cons_self _ _)
    · intro a ha
      exact hld a (List.mem_cons_of_mem _ ((sortBucketsDesc_perm xs).mem_iff.mp ha))
    · intro a ha
      exact Ne.symm (hx a ((sortBucketsDesc_perm xs).mem_iff.mp ha))
    · exact ih (fun a ha => hld a (List.mem_cons_of_mem _ ha)) hxs

/-- **C1** (amended).  The grouping step places two conference teams in the
same tied group exactly when their overall win *percentages* are equal (win
percentage, not the (wins, losses) pair, is what `WinLossRecord.__eq__` and
`__hash__` compare), and the groups are ordered from best win percentage to
worst by the subsequent sort. -/
theorem c1_amended_grouping_by_win_pct
    (recs : Team → Record) (teams : List Team) (buckets : List (Frac × List Team))
    (h : groupTeamsAux recs teams [] = .ok buckets) :
    (∀ t1 ∈ teams, ∀ t2 ∈ teams,
      ((∃ b ∈ buckets, t1 ∈ b.2 ∧ t2 ∈ b.2) ↔
        ∃ f1 f2, (recs t1).overall_win_loss.win_pct = .ok f1 ∧
          (recs t2).overall_win_loss.win_pct = .ok f2 ∧ f1.toRat = f2.toRat)) ∧
    (sortBucketsDesc buckets).Pairwise (fun a b => b.1.toRat < a.1.toRat) := by
  have hmain := groupTeamsAux_ok recs teams [] buckets h (by simp) (by simp)
  rcases hmain with ⟨hkey, hpw, hcov, _⟩
  constructor
  · intro t1 h1 t2 h2
    constructor
    · rintro ⟨b, hb, hb1, hb2⟩
      rcases (hkey b hb).2 t1 hb1 with ⟨f1, hf1, hr1⟩
      rcases (hkey b hb).2 t2 hb2 with ⟨f2, hf2, hr2⟩
      exact ⟨f1, f2, hf1, hf2, by rw [hr1, hr2]⟩
    · rintro ⟨f1, f2, hf1, hf2, heq⟩
      rcases hcov t1 h1 with ⟨b1, hb1, ht1⟩
      rcases hcov t2 h2 with ⟨b2, hb2, ht2⟩
      rcases (hkey b1 hb1).2 t1 ht1 with ⟨g1, hg1, hr1⟩
      rcases (hkey b2 hb2).2 t2 ht2 with ⟨g2, hg2, hr2⟩
      have hkeq : b1.1.toRat = b2.1.toRat := by
        rw [← hr1, ← hr2, Except.ok.inj (hg1.symm.trans hf1),
          Except.ok.inj (hg2.symm.trans hf2), heq]
      have hbeq : b1 = b2 :=
        pairwise_ne_mem_eq hpw hb1 hb2 (not_not.mpr hkeq) (not_not.mpr hkeq.symm)
      exact ⟨b1, hb1, ht1, hbeq ▸ ht2⟩
  · exact sortBucketsDesc_pairwise buckets (fun pr hpr => (hkey pr hpr).1) hpw


theorem c1_amended_grouping_by_win_pct_witness :
    groupTeamsAux (Standings.ofGames groupingGames).records EASTERN_CONFERENCE_TEAMS [] =
      .ok [(⟨1, 2⟩, [ATL, BOS, CHH, CHI, CHH]),
           (⟨2, 2⟩, [BRK, DET, MIA, NYK, PHI]),
           (⟨0, 1⟩, [CLE, IND, MIL, ORL, TOR, WAS])] ∧
    (sortBucketsDesc [(⟨1, 2⟩, [ATL, BOS, CHH, CHI, CHH]),
           (⟨2, 2⟩, [BRK, DET, MIA, NYK, PHI]),
           (⟨0, 1⟩, [CLE, IND, MIL, ORL, TOR, WAS])]).Pairwise
      (fun a b => b.1.toRat < a.1.toRat) :=
  ⟨by decide,
   (c1_amended_grouping_by_win_pct (Standings.ofGames groupingGames).records
      EASTERN_CONFERENCE_TEAMS
      [(⟨1, 2⟩, [ATL, BOS, CHH, CHI, CHH]),
       (⟨2, 2⟩, [BRK, DET, MIA, NYK, PHI]),
       (⟨0, 1⟩, [CLE, IND, MIL, ORL, TOR, WAS])] (by decide)).2⟩

theorem Frac.cmp_swap (a b : Frac) : Frac.cmp b a = (Frac.cmp a b).swap := by
  unfold Frac.cmp
  split_ifs <;> first | rfl | omega

theorem zCompare_swap (a b : Int) : zCompare b a = (zCompare a b).swap := by
  unfold zCompare
  split_ifs <;> first | rfl | omega

theorem compOrd_swap (a b : Component) (o : Ordering) (h : compOrd a b = .ok o) :
    compOrd b a = .ok o.swap := by
  rcases a with ra | za <;> rcases b with rb | zb <;>
    simp only [compOrd, Bind.bind, Except.bind, pure, Except.pure] at h ⊢
  · rcases hpa : ra.win_pct with _ | pa
    · rw [hpa] at h
      cases h
    · rcases hpb : rb.win_pct with _ | pb
      · rw [hpa, hpb] at h
        cases h
      · rw [hpa, hpb] at h
        cases h
        exact congrArg Except.ok (Frac.cmp_swap pa pb)
  · cases h
  · cases h
  · cases h
    rw [zCompare_swap]

theorem listOrd_swap : ∀ (l1 l2 : List Component) (o : Ordering),
    listOrd l1 l2 = .ok o → listOrd l2 l1 = .ok o.swap := by
  intro l1
  induction l1 with
  | nil =>
    intro l2 o h
    cases l2 with
    | nil => cases h; rfl
    | cons b bs => cases h; rfl
  | cons a as2 ih =>
    intro l2 o h
    cases l2 with
    | nil => cases h; rfl
    | cons b bs =>
      simp only [listOrd, Bind.bind, Except.bind] at h ⊢
      rcases hc : compOrd a b with _ | oc
      · rw [hc] at h
        cases h
      · rw [hc] at h
        rw [compOrd_swap a b oc hc]
        cases oc with
        | lt => cases h; rfl
        | gt => cases h; rfl
        | eq => exact ih bs o h

theorem pairLt_ok_true (x y : List Component × Team) (h : pairLt x y = .ok true) :
    listOrd x.1 y.1 = .ok .lt := by
  unfold pairLt at h
  simp only [Bind.bind, Except.bind] at h
  rcases hc : listOrd x.1 y.1 with _ | o
  · rw [hc] at h
    cases h
  · rw [hc] at h
    cases o with
    | lt => rfl
    | gt => cases h
    | eq =>
      by_cases ht : x.2 = y.2
      · rw [if_pos ht] at h
        cases h
      · rw [if_neg ht] at h
        cases h

theorem pairLt_true_swap (x y : List Component × Team) (h : pairLt x y = .ok true) :
    pairLt y x = .ok false := by
  have hlt := pairLt_ok_true x y h
  have hgt := listOrd_swap x.1 y.1 .lt hlt
  unfold pairLt
  simp only [Bind.bind, Except.bind, hgt]
  rfl

theorem insertDescE_perm (x : List Component × Team) :
    ∀ (l r : List (List Component × Team)), insertDescE x l = .ok r → r.Perm (x :: l) := by
  intro l
  induction l with
  | nil =>
    intro r h
    cases h
    exact List.Perm.refl _
  | cons y ys ih =>
    intro r h
    unfold insertDescE at h
    simp only [Bind.bind, Except.bind] at h
    rcases hv : pairLt x y with _ | b
    · rw [hv] at h
      cases h
    · rw [hv] at h
      cases b with
      | true =>
        simp only [if_true] at h
        rcases hr : insertDescE x ys with _ | r2
        · rw [hr] at h
          cases h
        · rw [hr] at h
          cases h
          exact ((ih r2 hr).cons y).trans (List.Perm.swap x y ys)
      | false =>
        simp only [if_false] at h
        cases h
        exact List.Perm.refl _

theorem sortDescE_perm :
    ∀ (l r : List (List Component × Team)), sortDescE l = .ok r → r.Perm l := by
  intro l
  induction l with
  | nil =>
    intro r h
    cases h
    exact List.Perm.refl _
  | cons x xs ih =>
    intro r h
    unfold sortDescE at h
    simp only [Bind.bind, Except.bind] at h
    rcases hs : sortDescE xs with _ | r2
    · rw [hs] at h
      cases h
    · rw [hs] at h
      exact (insertDescE_perm x r2 r h).trans ((ih r2 hs).cons x)

theorem insertDescE_head (x : List Component × Team) :
    ∀ (l r : List (List Component × Team)), insertDescE x l = .ok r →
      r.head? = some x ∨ r.head? = l.head? := by
  intro l
  induction l with
  | nil =>
    intro r h
    cases h
    exact Or.inl rfl
  | cons y ys _ =>
    intro r h
    unfold insertDescE at h
    simp only [Bind.bind, Except.bind] at h
    rcases hv : pairLt x y with _ | b
    · rw [hv] at h
      cases h
    · rw [hv] at h
      cases b with
      | true =>
        simp only [if_true] at h
        rcases hr : insertDescE x ys with _ | r2
        · rw [hr] at h
          cases h
        · rw [hr] at h
          cases h
          exact Or.inr rfl
      | false =>
        simp only [if_false] at h
        cases h
        exact Or.inl rfl

theorem insertDescE_chain (x : List Component × Team) :
    ∀ (l r : List (List Component × Team)), insertDescE x l = .ok r →
      l.Chain' (fun a b => pairLt a b = .ok false) →
      r.Chain' (fun a b => pairLt a b = .ok false) := by
  intro l
  induction l with
  | nil =>
    intro r h _
    cases h
    simp
  | cons y ys ih =>
    intro r h hch
    rcases List.chain'_cons'.mp hch with ⟨hhead, htail⟩
    unfold insertDescE at h
    simp only [Bind.bind, Except.bind] at h
    rcases hv : pairLt x y with _ | b
    · rw [hv] at h
      cases h
    · rw [hv] at h
      cases b with
      | true =>
        simp only [if_true] at h
        rcases hr : insertDescE x ys with _ | r2
        · rw [hr] at h
          cases h
        · rw [hr] at h
          cases h
          refine List.chain'_cons'.mpr ⟨?_, ih r2 hr htail⟩
          intro z hz
          rcases insertDescE_head x ys r2 hr with h2 | h2
          · rw [h2] at hz
            cases Option.some.inj hz
            exact pairLt_true_swap x y hv
          · rw [h2] at hz
            exact hhead z hz
      | false =>
        simp only [if_false] at h
        cases h
        exact List.chain'_cons'.mpr ⟨fun z hz => by cases Option.some.inj hz; exact hv, hch⟩

theorem sortDescE_chain :
    ∀ (l r : List (List Component × Team)), sortDescE l = .ok r →
      r.Chain' (fun a b => pairLt a b = .ok false) := by
  intro l
  induction l with
  | nil =>
    intro r h
    cases h
    simp
  | cons x xs ih =>
    intro r h
    unfold sortDescE at h
    simp only [Bind.bind, Except.bind] at h
    rcases hs : sortDescE xs with _ | r2
    · rw [hs] at h
      cases h
    · rw [hs] at h
      exact insertDescE_chain x r2 r h (ih r2 hs)

theorem mapE_ok {α β : Type} (f : α → Except Unit β) :
    ∀ (l : List α) (r : List β), mapE f l = .ok r →
      List.Forall₂ (fun a b => f a = .ok b) l r := by
  intro l
  induction l with
  | nil =>
    intro r h
    cases h
    exact List.Forall₂.nil
  | cons a l2 ih =>
    intro r h
    unfold mapE at h
    simp only [Bind.bind, Except.bind] at h
    rcases ha : f a with _ | b
    · rw [ha] at h
      cases h
    · rw [ha] at h
      rcases hl : mapE f l2 with _ | r2
      · rw [hl] at h
        cases h
      · rw [hl] at h
        cases h
        exact List.Forall₂.cons ha (ih r2 hl)

theorem chain_transfer (S : Standings) (group own opp : List Team) :
    ∀ (l : List (List Component × Team)),
    (∀ p ∈ l, p.1 = S.tiebreaker_tuple p.2 group own opp) →
    l.Chain' (fun a b => pairLt a b = .ok false) →
    (l.map (fun p => p.2)).Chain' (tupleNotBelow S group own opp) := by
  intro l
  induction l with
  | nil =>
    intro _ _
    simp
  | cons p ps ih =>
    intro hshape hch
    rcases List.chain'_cons'.mp hch with ⟨hhead, htail⟩
    rw [List.map_cons]
    refine List.chain'_cons'.mpr ⟨?_, ih (fun q hq => hshape q (List.mem_cons_of_mem _ hq)) htail⟩
    intro z hz
    cases ps with
    | nil => cases hz
    | cons q qs =>
      rw [List.map_cons, List.head?_cons] at hz
      cases Option.some.inj hz
      have h1 := hshape p (List.mem_cons_self _ _)
      have h2 := hshape q (List.mem_cons_of_mem _ (List.mem_cons_self _ _))
      unfold tupleNotBelow
      rw [← h1, ← h2, Prod.mk.eta, Prod.mk.eta]
      exact hhead q rfl

theorem break_tie_ok (S : Standings) (group own opp : List Team) (r : List Team)
    (h : S.break_tie group own opp = .ok r) :
    r.Perm group ∧ r.Chain' (tupleNotBelow S group own opp) := by
  unfold Standings.break_tie at h
  simp only [Bind.bind, Except.bind] at h
  rcases hs : sortDescE (group.map (fun team => (S.tiebreaker_tuple team group own opp, team)))
      with _ | sorted
  · rw [hs] at h
    cases h
  · rw [hs] at h
    cases h
    have hperm := sortDescE_perm _ sorted hs
    constructor
    · have := hperm.map (fun p => p.2)
      refine this.trans ?_
      rw [List.map_map]
      have : ((fun p => p.2) ∘ fun team =>
          ((S.tiebreaker_tuple team group own opp, team) : List Component × Team)) = id := by
        funext t
        rfl
      rw [this, List.map_id]
    · refine chain_transfer S group own opp sorted ?_ (sortDescE_chain _ sorted hs)
      intro p hp
      have hp2 := hperm.mem_iff.mp hp
      rcases List.mem_map.mp hp2 with ⟨t, _, rfl⟩
      rfl

theorem bucketAdd_sizes (p : Frac) (t : Team) :
    ∀ (acc : List (Frac × List Team)),
    ((bucketAdd acc p t).map (fun pr => pr.2.length)).sum =
      (acc.map (fun pr => pr.2.length)).sum + 1 := by
  intro acc
  induction acc with
  | nil => simp [bucketAdd]
  | cons hd rest ih =>
    rcases hd with ⟨q, g⟩
    unfold bucketAdd
    split
    · simp
      omega
    · simp only [List.map_cons, List.sum_cons, ih]
      omega

theorem groupTeamsAux_sizes (recs : Team → Record) :
    ∀ (ts : List Team) (acc buckets : List (Frac × List Team)),
    groupTeamsAux recs ts acc = .ok buckets →
    (buckets.map (fun pr => pr.2.length)).sum =
      (acc.map (fun pr => pr.2.length)).sum + ts.length := by
  intro ts
  induction ts with
  | nil =>
    intro acc buckets h
    cases h
    simp
  | cons t ts2 ih =>
    intro acc buckets h
    unfold groupTeamsAux at h
    simp only [Bind.bind, Except.bind] at h
    rcases hp : (recs t).overall_win_loss.win_pct with _ | p
    · rw [hp] at h
      cases h
    · rw [hp] at h
      rw [ih (bucketAdd acc p t) buckets h, bucketAdd_sizes]
      simp
      omega

theorem sortBucketsDesc_sizes (l : List (Frac × List Team)) :
    ((sortBucketsDesc l).map (fun pr => pr.2.length)).sum =
      (l.map (fun pr => pr.2.length)).sum :=
  List.Perm.sum_eq ((sortBucketsDesc_perm l).map (fun pr => pr.2.length))

theorem accumGroups_sum :
    ∀ (l : List (Frac × List Team)) (n : Nat),
    10 ≤ n + (l.map (fun pr => pr.2.length)).sum →
    10 ≤ n + ((accumGroups l n).map (fun g => g.length)).sum := by
  intro l
  induction l with
  | nil =>
    intro n h
    simpa using h
  | cons hd rest ih =>
    intro n h
    rcases hd with ⟨q, g⟩
    unfold accumGroups
    by_cases h10 : 10 ≤ n + g.length
    · rw [if_pos h10]
      simp
      omega
    · rw [if_neg h10]
      simp only [List.map_cons, List.sum_cons]
      have := ih (n + g.length) (by simp at h; omega)
      omega

theorem accumGroups_prefix :
    ∀ (l : List (Frac × List Team)) (n : Nat), n < 10 →
    ∀ k, k < (accumGroups l n).length →
      n + (((accumGroups l n).take k).map (fun g => g.length)).sum < 10 := by
  intro l
  induction l with
  | nil =>
    intro n hn k hk
    simp [accumGroups] at hk
  | cons hd rest ih =>
    intro n hn k hk
    rcases hd with ⟨q, g⟩
    unfold accumGroups at hk ⊢
    cases k with
    | zero => simpa using hn
    | succ j =>
      by_cases h10 : 10 ≤ n + g.length
      · rw [if_pos h10] at hk ⊢
        simp at hk
      · rw [if_neg h10] at hk ⊢
        simp only [List.length_cons, Nat.succ_lt_succ_iff] at hk
        have := ih (n + g.length) (by omega) j hk
        simp only [List.take_succ_cons, List.map_cons, List.sum_cons]
        omega

theorem get_tiebreaker_sets_ok (S : Standings) (teams : List Team)
    (gs : List (List Team)) (h : S.get_tiebreaker_sets teams = .ok gs)
    (hlen : 10 ≤ teams.length) :
    10 ≤ (gs.map (fun g => g.length)).sum ∧
    ∀ k, k < gs.length → ((gs.take k).map (fun g => g.length)).sum < 10 := by
  unfold Standings.get_tiebreaker_sets at h
  simp only [Bind.bind, Except.bind] at h
  rcases hb : groupTeamsAux S.records teams [] with _ | buckets
  · rw [hb] at h
    cases h
  · rw [hb] at h
    cases h
    have hsz := groupTeamsAux_sizes S.records teams [] buckets hb
    simp only [List.map_nil, List.sum_nil, Nat.zero_add] at hsz
    constructor
    · have := accumGroups_sum (sortBucketsDesc buckets) 0
        (by rw [sortBucketsDesc_sizes, hsz]; omega)
      simpa using this
    · intro k hk
      have := accumGroups_prefix (sortBucketsDesc buckets) 0 (by omega) k hk
      simpa using this

theorem forall2_perm_sizes {α : Type} :
    ∀ (l1 l2 : List (List α)), List.Forall₂ (fun g r => r.Perm g) l1 l2 →
      (l2.map (fun g => g.length)).sum = (l1.map (fun g => g.length)).sum := by
  intro l1 l2 hf
  induction hf with
  | nil => rfl
  | cons h12 _ ih => simp [ih, h12.length_eq]

/-- **C6** (amended).  Whenever `playoff_seeding` succeeds (it can raise, see
the counterexample), it returns exactly 10 teams per conference with the
claimed structure: the per-conference tied groups accumulate whole groups
from the best record down until the running total reaches 10 (every proper
prefix of the group list holds fewer than 10 teams, the full list at least
10 — the last group may push past 10 and is kept intact); each group is
reordered into a permutation of itself, descending by tiebreaker tuple
(adjacent members never compare strictly upward); the groups are
concatenated in order; and the seeding is the 10-prefix of that
concatenation — truncation happens only at the very end.  Determinism is
inherent: the embedded `playoff_seeding` is a function of the game list. -/
theorem c6_amended_seeding_structure (games : List Game) (s : PlayoffSeeding)
    (h : (Standings.ofGames games).playoff_seeding = .ok s) :
    s.east_seeding.length = 10 ∧ s.west_seeding.length = 10 ∧
    ∃ eg wg eparts wparts,
      (Standings.ofGames games).get_tiebreaker_sets EASTERN_CONFERENCE_TEAMS = .ok eg ∧
      (Standings.ofGames games).get_tiebreaker_sets WESTERN_CONFERENCE_TEAMS = .ok wg ∧
      10 ≤ (eg.map (fun g => g.length)).sum ∧
      (∀ k, k < eg.length → ((eg.take k).map (fun g => g.length)).sum < 10) ∧
      10 ≤ (wg.map (fun g => g.length)).sum ∧
      (∀ k, k < wg.length → ((wg.take k).map (fun g => g.length)).sum < 10) ∧
      List.Forall₂ (fun g r =>
        (Standings.ofGames games).break_tie g eg.flatten wg.flatten = .ok r ∧
        r.Perm g ∧ r.Chain' (tupleNotBelow (Standings.ofGames games) g eg.flatten wg.flatten))
        eg eparts ∧
      List.Forall₂ (fun g r =>
        (Standings.ofGames games).break_tie g wg.flatten eg.flatten = .ok r ∧
        r.Perm g ∧ r.Chain' (tupleNotBelow (Standings.ofGames games) g wg.flatten eg.flatten))
        wg wparts ∧
      s.east_seeding = eparts.flatten.take 10 ∧
      s.west_seeding = wparts.flatten.take 10 := by
  unfold Standings.playoff_seeding at h
  simp only [Bind.bind, Except.bind] at h
  rcases he : (Standings.ofGames games).get_tiebreaker_sets EASTERN_CONFERENCE_TEAMS
      with _ | eg
  · rw [he] at h
    cases h
  rw [he] at h
  rcases hw : (Standings.ofGames games).get_tiebreaker_sets WESTERN_CONFERENCE_TEAMS
      with _ | wg
  · rw [hw] at h
    cases h
  rw [hw] at h
  unfold Standings.break_ties at h
  simp only [Bind.bind, Except.bind] at h
  rcases hme : mapE (fun g => (Standings.ofGames games).break_tie g eg.flatten wg.flatten) eg
      with _ | eparts
  · rw [hme] at h
    cases h
  rw [hme] at h
  rcases hmw : mapE (fun g => (Standings.ofGames games).break_tie g wg.flatten eg.flatten) wg
      with _ | wparts
  · rw [hmw] at h
    cases h
  rw [hmw] at h
  cases h
  have hfe : List.Forall₂ (fun g r =>
      (Standings.ofGames games).break_tie g eg.flatten wg.flatten = .ok r ∧
      r.Perm g ∧ r.Chain' (tupleNotBelow (Standings.ofGames games) g eg.flatten wg.flatten))
      eg eparts :=
    (mapE_ok _ eg eparts hme).imp
      (fun g r hb => ⟨hb, break_tie_ok (Standings.ofGames games) g eg.flatten wg.flatten r hb⟩)
  have hfw : List.Forall₂ (fun g r =>
      (Standings.ofGames games).break_tie g wg.flatten eg.flatten = .ok r ∧
      r.Perm g ∧ r.Chain' (tupleNotBelow (Standings.ofGames games) g wg.flatten eg.flatten))
      wg wparts :=
    (mapE_ok _ wg wparts hmw).imp
      (fun g r hb => ⟨hb, break_tie_ok (Standings.ofGames games) g wg.flatten eg.flatten r hb⟩)
  have hege := get_tiebreaker_sets_ok (Standings.ofGames games) EASTERN_CONFERENCE_TEAMS eg he
    (by decide)
  have hwge := get_tiebreaker_sets_ok (Standings.ofGames games) WESTERN_CONFERENCE_TEAMS wg hw
    (by decide)
  have hesz : (eparts.map (fun g => g.length)).sum = (eg.map (fun g => g.length)).sum :=
    forall2_perm_sizes eg eparts (hfe.imp (fun g r hb => hb.2.1))
  have hwsz : (wparts.map (fun g => g.length)).sum = (wg.map (fun g => g.length)).sum :=
    forall2_perm_sizes wg wparts (hfw.imp (fun g r hb => hb.2.1))
  refine ⟨?_, ?_, eg, wg, eparts, wparts, rfl, rfl, hege.1, hege.2, hwge.1, hwge.2,
    hfe, hfw, rfl, rfl⟩
  · simp only [List.length_take, List.length_flatten, hesz]
    omega
  · simp only [List.length_take, List.length_flatten, hwsz]
    omega


theorem c6_amended_seeding_structure_witness :
    (Standings.ofGames seedingWitnessGames).playoff_seeding =
      .ok ⟨[ATL, BOS, BRK, CHI, CLE, DET, IND, MIA, MIL, NYK],
           [DAL, DEN, GSW, HOU, LAC, LAL, MEM, MIN, NOP, OKC]⟩ ∧
    (PlayoffSeeding.mk [ATL, BOS, BRK, CHI, CLE, DET, IND, MIA, MIL, NYK]
        [DAL, DEN, GSW, HOU, LAC, LAL, MEM, MIN, NOP, OKC]).east_seeding.length = 10 :=
  ⟨by decide,
   (c6_amended_seeding_structure seedingWitnessGames
      ⟨[ATL, BOS, BRK, CHI, CLE, DET, IND, MIA, MIL, NYK],
       [DAL, DEN, GSW, HOU, LAC, LAL, MEM, MIN, NOP, OKC]⟩ (by decide)).1⟩

theorem counterVal_nil (u : Str) : counterVal [] u = 0 := rfl

theorem counterVal_bump (p : Player) (u : Str) :
    ∀ (cnt : Counter), counterVal (counterBump cnt p) u =
      if u = p.url then counterVal cnt u + 1 else counterVal cnt u := by
  intro cnt
  induction cnt with
  | nil =>
    by_cases hu : u = p.url
    · subst hu
      simp [counterBump, counterVal, List.find?]
    · have hd : decide (p.url = u) = false := by
        simp
        exact fun h => hu h.symm
      simp [counterBump, counterVal, List.find?, hd, hu]
  | cons hd rest ih =>
    rcases hd with ⟨q, n⟩
    unfold counterBump
    by_cases hq : q.url = p.url
    · rw [if_pos hq]
      by_cases hu : u = q.url
      · have h1 : decide (q.url = u) = true := by simp [hu]
        have h2 : u = p.url := hu.trans hq
        simp [counterVal, List.find?, h1, h2, hq]
      · have h1 : decide (q.url = u) = false := by
          simp
          exact fun h => hu h.symm
        have h2 : ¬ u = p.url := fun h => hu (h.trans hq.symm)
        simp [counterVal, List.find?, h1, h2]
    · rw [if_neg hq]
      by_cases hu : u = q.url
      · have h1 : decide (q.url = u) = true := by simp [hu]
        have h2 : ¬ u = p.url := fun h => hq (hu.symm.trans h)
        simp [counterVal, List.find?, h1, h2]
      · have h1 : decide (q.url = u) = false := by
          simp
          exact fun h => hu h.symm
        simp only [counterVal, List.find?, h1]
        simp only [counterVal] at ih
        exact ih

theorem counterVal_bumpAll (u : Str) :
    ∀ (ps : List Player) (cnt : Counter),
    counterVal (counterBumpAll cnt ps) u =
      counterVal cnt u + (ps.filter (fun p => decide (p.url = u))).length := by
  intro ps
  induction ps with
  | nil =>
    intro cnt
    simp [counterBumpAll]
  | cons p ps2 ih =>
    intro cnt
    unfold counterBumpAll at ih ⊢
    rw [List.foldl_cons, ih (counterBump cnt p), counterVal_bump]
    by_cases hu : u = p.url
    · have : decide (p.url = u) = true := by simp [hu]
      simp [hu, this]
      omega
    · have : decide (p.url = u) = false := by
        simp
        exact fun h => hu h.symm
      simp [hu, this]

theorem filter_map_const_length {α : Type} (l : List α) (p : Player) (q : Player → Bool) :
    ((l.map (fun _ => p)).filter q).length = if q p then l.length else 0 := by
  induction l with
  | nil => simp
  | cons x xs ih =>
    simp only [List.map_cons, List.filter_cons]
    by_cases h : q p
    · simp only [if_pos h, List.length_cons, ih]
    · simp only [if_neg h, ih]

theorem fragmentsLookup_count (d : PlayerDirectory) (t : Str) (u : Str) :
    ((d.fragmentsLookup t).filter (fun p => decide (p.url = u))).length =
      ((d.players.filter (fun p => decide (p.url = u))).map
        (fun p => ((splitWs p.name).filter (fun f => decide (f = t))).length)).sum := by
  unfold PlayerDirectory.fragmentsLookup
  induction d.players with
  | nil => rfl
  | cons p ps ih =>
    rw [List.flatMap_cons, List.filter_append, List.length_append, ih, List.filter_cons,
      filter_map_const_length]
    by_cases hu : p.url = u
    · rw [if_pos (by simp [hu] : decide (p.url = u) = true),
        if_pos (by simp [hu] : (decide (p.url = u)) = true)]
      simp
    · rw [if_neg (by simp [hu] : ¬ decide (p.url = u) = true),
        if_neg (by simp [hu] : ¬ (decide (p.url = u)) = true)]
      simp

theorem wfUrls_inj (d : PlayerDirectory) (hwf : d.wfUrls) :
    ∀ p ∈ d.players, ∀ q ∈ d.players, p.url = q.url → p = q := by
  unfold PlayerDirectory.wfUrls at hwf
  intro p hp q hq hpq
  have := List.inj_on_of_nodup_map hwf
  exact this hp hq hpq

theorem filter_url_eq_of_inj :
    ∀ (l : List Player), (∀ p ∈ l, ∀ q ∈ l, p.url = q.url → p = q) → l.Nodup →
    ∀ (p : Player), p ∈ l → l.filter (fun q => decide (q.url = p.url)) = [p] := by
  intro l
  induction l with
  | nil =>
    intro _ _ p hp
    cases hp
  | cons x xs ih =>
    intro hinj hnd p hp
    rw [List.filter_cons]
    rcases List.mem_cons.mp hp with rfl | hp2
    · rw [if_pos (by simp)]
      congr 1
      rw [List.filter_eq_nil_iff]
      intro q hq
      simp only [decide_eq_true_eq]
      intro hqu
      have : q = p := hinj q (List.mem_cons_of_mem _ hq) p (List.mem_cons_self _ _) hqu
      subst this
      exact (List.nodup_cons.mp hnd).1 hq
    · have hxp : ¬ x.url = p.url := by
        intro hxu
        have : x = p := hinj x (List.mem_cons_self _ _) p (List.mem_cons_of_mem _ hp2) hxu
        subst this
        exact (List.nodup_cons.mp hnd).1 hp2
      rw [if_neg (by simp [hxp])]
      exact ih (fun a ha b hb => hinj a (List.mem_cons_of_mem _ ha) b (List.mem_cons_of_mem _ hb))
        (List.nodup_cons.mp hnd).2 p hp2

theorem wfUrls_filter_eq (d : PlayerDirectory) (hwf : d.wfUrls) (p : Player)
    (hp : p ∈ d.players) :
    d.players.filter (fun q => decide (q.url = p.url)) = [p] :=
  filter_url_eq_of_inj d.players (wfUrls_inj d hwf) ((List.Nodup.of_map _) hwf) p hp

theorem counterVal_scoreFold (d : PlayerDirectory) :
    ∀ (nts : List Str) (cnt : Counter) (u : Str),
    counterVal (scoreFold d nts cnt) u =
      counterVal cnt u +
        (nts.map (fun t => ((d.fragmentsLookup t).filter
          (fun p => decide (p.url = u))).length)).sum := by
  intro nts
  induction nts with
  | nil =>
    intro cnt u
    simp [scoreFold]
  | cons t ts ih =>
    intro cnt u
    unfold scoreFold at ih ⊢
    rw [List.foldl_cons, ih, counterVal_bumpAll]
    simp only [List.map_cons, List.sum_cons]
    omega

theorem occScore_eq_counterVal (d : PlayerDirectory) (hwf : d.wfUrls) (p : Player)
    (hp : p ∈ d.players) (nts : List Str) :
    counterVal (scoreFold d nts []) p.url = occScore p nts := by
  rw [counterVal_scoreFold, counterVal_nil, Nat.zero_add]
  unfold occScore
  congr 1
  apply List.map_congr_left
  intro t _
  rw [fragmentsLookup_count, wfUrls_filter_eq d hwf p hp]
  simp

theorem fragmentsLookup_sub (d : PlayerDirectory) (t : Str) :
    ∀ q ∈ d.fragmentsLookup t, q ∈ d.players := by
  intro q hq
  unfold PlayerDirectory.fragmentsLookup at hq
  rcases List.mem_flatMap.mp hq with ⟨p, hp, hq2⟩
  rcases List.mem_map.mp hq2 with ⟨_, _, rfl⟩
  exact hp

theorem counterBump_good (d : PlayerDirectory) (p : Player) (hp : p ∈ d.players) :
    ∀ (cnt : Counter), (∀ pc ∈ cnt, pc.1 ∈ d.players ∧ 1 ≤ pc.2) →
      ∀ pc ∈ counterBump cnt p, pc.1 ∈ d.players ∧ 1 ≤ pc.2 := by
  intro cnt
  induction cnt with
  | nil =>
    intro _ pc hpc
    simp [counterBump] at hpc
    subst hpc
    exact ⟨hp, le_refl 1⟩
  | cons hd rest ih =>
    intro hgood pc hpc
    rcases hd with ⟨q, n⟩
    unfold counterBump at hpc
    split at hpc
    · rcases List.mem_cons.mp hpc with rfl | hpc2
      · exact ⟨(hgood (q, n) (List.mem_cons_self _ _)).1, by omega⟩
      · exact hgood pc (List.mem_cons_of_mem _ hpc2)
    · rcases List.mem_cons.mp hpc with rfl | hpc2
      · exact hgood (q, n) (List.mem_cons_self _ _)
      · exact ih (fun x hx => hgood x (List.mem_cons_of_mem _ hx)) pc hpc2

theorem counterBumpAll_good (d : PlayerDirectory) :
    ∀ (ps : List Player), (∀ q ∈ ps, q ∈ d.players) →
    ∀ (cnt : Counter), (∀ pc ∈ cnt, pc.1 ∈ d.players ∧ 1 ≤ pc.2) →
      ∀ pc ∈ counterBumpAll cnt ps, pc.1 ∈ d.players ∧ 1 ≤ pc.2 := by
  intro ps
  induction ps with
  | nil =>
    intro _ cnt hgood
    exact hgood
  | cons q qs ih =>
    intro hsub cnt hgood
    unfold counterBumpAll
    rw [List.foldl_cons]
    exact ih (fun x hx => hsub x (List.mem_cons_of_mem _ hx)) (counterBump cnt q)
      (counterBump_good d q (hsub q (List.mem_cons_self _ _)) cnt hgood)

theorem scoreFold_good (d : PlayerDirectory) :
    ∀ (nts : List Str) (cnt : Counter), (∀ pc ∈ cnt, pc.1 ∈ d.players ∧ 1 ≤ pc.2) →
      ∀ pc ∈ scoreFold d nts cnt, pc.1 ∈ d.players ∧ 1 ≤ pc.2 := by
  intro nts
  induction nts with
  | nil =>
    intro cnt hgood
    exact hgood
  | cons t ts ih =>
    intro cnt hgood
    unfold scoreFold
    rw [List.foldl_cons]
    exact ih (counterBumpAll cnt (d.fragmentsLookup t))
      (counterBumpAll_good d (d.fragmentsLookup t) (fragmentsLookup_sub d t) cnt hgood)

theorem counterBump_urls (p : Player) :
    ∀ (cnt : Counter), ∀ u ∈ (counterBump cnt p).map (fun pc => pc.1.url),
      u ∈ cnt.map (fun pc => pc.1.url) ∨ u = p.url := by
  intro cnt
  induction cnt with
  | nil =>
    intro u hu
    simp [counterBump] at hu
    exact Or.inr hu
  | cons hd rest ih =>
    intro u hu
    rcases hd with ⟨q, n⟩
    unfold counterBump at hu
    split at hu
    · rw [List.map_cons] at hu
      rcases List.mem_cons.mp hu with rfl | hu2
      · exact Or.inl (by simp)
      · exact Or.inl (by rw [List.map_cons]; exact List.mem_cons_of_mem _ hu2)
    · rw [List.map_cons] at hu
      rcases List.mem_cons.mp hu with rfl | hu2
      · exact Or.inl (by simp)
      · rcases ih u hu2 with h3 | h3
        · exact Or.inl (by rw [List.map_cons]; exact List.mem_cons_of_mem _ h3)
        · exact Or.inr h3

theorem counterBump_nodup (p : Player) :
    ∀ (cnt : Counter), (cnt.map (fun pc => pc.1.url)).Nodup →
      ((counterBump cnt p).map (fun pc => pc.1.url)).Nodup := by
  intro cnt
  induction cnt with
  | nil =>
    intro _
    simp [counterBump]
  | cons hd rest ih =>
    intro hnd
    rcases hd with ⟨q, n⟩
    rw [List.map_cons, List.nodup_cons] at hnd
    unfold counterBump
    split
    · rw [List.map_cons]
      exact List.nodup_cons.mpr hnd
    · next hne =>
      rw [List.map_cons]
      refine List.nodup_cons.mpr ⟨?_, ih hnd.2⟩
      intro hcon
      rcases counterBump_urls p rest q.url hcon with h3 | h3
      · exact hnd.1 h3
      · exact hne h3

theorem counterBumpAll_nodup :
    ∀ (ps : List Player) (cnt : Counter), (cnt.map (fun pc => pc.1.url)).Nodup →
      ((counterBumpAll cnt ps).map (fun pc => pc.1.url)).Nodup := by
  intro ps
  induction ps with
  | nil =>
    intro cnt h
    exact h
  | cons q qs ih =>
    intro cnt h
    unfold counterBumpAll
    rw [List.foldl_cons]
    exact ih (counterBump cnt q) (counterBump_nodup q cnt h)

theorem scoreFold_nodup (d : PlayerDirectory) :
    ∀ (nts : List Str) (cnt : Counter), (cnt.map (fun pc => pc.1.url)).Nodup →
      ((scoreFold d nts cnt).map (fun pc => pc.1.url)).Nodup := by
  intro nts
  induction nts with
  | nil =>
    intro cnt h
    exact h
  | cons t ts ih =>
    intro cnt h
    unfold scoreFold
    rw [List.foldl_cons]
    exact ih (counterBumpAll cnt (d.fragmentsLookup t)) (counterBumpAll_nodup _ cnt h)

theorem counterVal_of_mem :
    ∀ (cnt : Counter), (cnt.map (fun pc => pc.1.url)).Nodup →
      ∀ pc ∈ cnt, counterVal cnt pc.1.url = pc.2 := by
  intro cnt
  induction cnt with
  | nil =>
    intro _ pc hpc
    cases hpc
  | cons hd rest ih =>
    intro hnd pc hpc
    rcases hd with ⟨q, n⟩
    rw [List.map_cons, List.nodup_cons] at hnd
    rcases List.mem_cons.mp hpc with rfl | hpc2
    · simp [counterVal, List.find?]
    · have hne : ¬ q.url = pc.1.url := by
        intro hcon
        exact hnd.1 (hcon ▸ List.mem_map.mpr ⟨pc, hpc2, rfl⟩)
      simp only [counterVal, List.find?]
      rw [show (decide (q.url = pc.1.url)) = false by simp [hne]]
      simp only [counterVal] at ih
      exact ih hnd.2 pc hpc2

theorem counterVal_pos_mem :
    ∀ (cnt : Counter) (u : Str), 1 ≤ counterVal cnt u →
      ∃ pc ∈ cnt, pc.1.url = u ∧ pc.2 = counterVal cnt u := by
  intro cnt
  induction cnt with
  | nil =>
    intro u h
    simp [counterVal, List.find?] at h
  | cons hd rest ih =>
    intro u h
    rcases hd with ⟨q, n⟩
    by_cases hq : q.url = u
    · refine ⟨(q, n), List.mem_cons_self _ _, hq, ?_⟩
      simp [counterVal, List.find?, hq]
    · have hd : (decide (q.url = u)) = false := by simp [hq]
      simp only [counterVal, List.find?, hd] at h ⊢
      rcases ih u h with ⟨pc, hpc, hurl, hval⟩
      exact ⟨pc, List.mem_cons_of_mem _ hpc, hurl, hval⟩

theorem foldl_max_spec :
    ∀ (l : List Nat) (a : Nat),
      a ≤ l.foldl max a ∧ (∀ x ∈ l, x ≤ l.foldl max a) ∧
        (l.foldl max a = a ∨ l.foldl max a ∈ l) := by
  intro l
  induction l with
  | nil =>
    intro a
    exact ⟨le_refl a, by simp, Or.inl rfl⟩
  | cons x xs ih =>
    intro a
    rw [List.foldl_cons]
    rcases ih (max a x) with ⟨h1, h2, h3⟩
    refine ⟨le_trans (le_max_left a x) h1, ?_, ?_⟩
    · intro y hy
      rcases List.mem_cons.mp hy with hy1 | hy2
      · rw [hy1]
        exact le_trans (le_max_right a x) h1
      · exact h2 y hy2
    · rcases h3 with h3 | h3
      · rcases max_choice a x with hm | hm
        · exact Or.inl (h3.trans hm)
        · exact Or.inr (List.mem_cons.mpr (Or.inl (h3.trans hm)))
      · exact Or.inr (List.mem_cons_of_mem _ h3)

theorem scoreTokens_ok (d : PlayerDirectory) :
    ∀ (ts nts : List Str) (cnt : Counter),
    mapE normalize_player_name ts = .ok nts →
    scoreTokens d ts cnt = .ok (scoreFold d nts cnt) := by
  intro ts
  induction ts with
  | nil =>
    intro nts cnt h
    cases h
    rfl
  | cons t ts2 ih =>
    intro nts cnt h
    unfold mapE at h
    simp only [Bind.bind, Except.bind] at h
    rcases hn : normalize_player_name t with _ | n
    · rw [hn] at h
      cases h
    · rw [hn] at h
      rcases hm : mapE normalize_player_name ts2 with _ | ns
      · rw [hm] at h
        cases h
      · rw [hm] at h
        cases h
        unfold scoreTokens
        simp only [Bind.bind, Except.bind, hn]
        rw [ih ns (counterBumpAll cnt (d.fragmentsLookup n)) hm]
        rfl

theorem candidate_core_spec (d : PlayerDirectory) (hwf : d.wfUrls) (nts : List Str)
    (c : Player × Nat) (cs : Counter) (hc : scoreFold d nts [] = c :: cs) :
    ∀ p : Player,
      p ∈ ((c :: cs).filter
          (fun pc => decide (pc.2 = (cs.map (fun pc => pc.2)).foldl max c.2))).map
        (fun pc => pc.1) ↔
      (p ∈ d.players ∧ 1 ≤ occScore p nts ∧
        ∀ q ∈ d.players, occScore q nts ≤ occScore p nts) := by
  have hgood : ∀ pc ∈ c :: cs, pc.1 ∈ d.players ∧ 1 ≤ pc.2 := by
    rw [← hc]
    exact scoreFold_good d nts [] (by simp)
  have hnd : ((c :: cs).map (fun pc => pc.1.url)).Nodup := by
    rw [← hc]
    exact scoreFold_nodup d nts [] (by simp)
  have hvm : ∀ pc ∈ c :: cs, counterVal (c :: cs) pc.1.url = pc.2 :=
    counterVal_of_mem (c :: cs) hnd
  have hval : ∀ p ∈ d.players, counterVal (c :: cs) p.url = occScore p nts := by
    intro p hp
    rw [← hc]
    exact occScore_eq_counterVal d hwf p hp nts
  rcases foldl_max_spec (cs.map (fun pc => pc.2)) c.2 with ⟨hm1, hm2, hm3⟩
  set m := (cs.map (fun pc => pc.2)).foldl max c.2 with hmdef
  have hles : ∀ pc ∈ c :: cs, pc.2 ≤ m := by
    intro pc hpc
    rcases List.mem_cons.mp hpc with rfl | hpc2
    · exact hm1
    · exact hm2 pc.2 (List.mem_map.mpr ⟨pc, hpc2, rfl⟩)
  have hex : ∃ pc0 ∈ c :: cs, pc0.2 = m := by
    rcases hm3 with h3 | h3
    · exact ⟨c, List.mem_cons_self _ _, h3.symm⟩
    · rcases List.mem_map.mp h3 with ⟨pc0, hpc0, hval0⟩
      exact ⟨pc0, List.mem_cons_of_mem _ hpc0, hval0⟩
  intro p
  constructor
  · intro hp
    rcases List.mem_map.mp hp with ⟨pc, hpcf, rfl⟩
    rcases List.mem_filter.mp hpcf with ⟨hpcm, hpcv⟩
    have hpcv2 : pc.2 = m := by simpa using hpcv
    have hpl := hgood pc hpcm
    refine ⟨hpl.1, ?_, ?_⟩
    · rw [← hval pc.1 hpl.1, hvm pc hpcm]
      exact hpl.2
    · intro q hq
      rw [← hval q hq, ← hval pc.1 hpl.1, hvm pc hpcm, hpcv2]
      by_cases hq0 : 1 ≤ counterVal (c :: cs) q.url
      · rcases counterVal_pos_mem (c :: cs) q.url hq0 with ⟨qc, hqc, _, hqval⟩
        rw [← hqval]
        exact hles qc hqc
      · omega
  · rintro ⟨hp, hocc, hmax⟩
    have hvp : 1 ≤ counterVal (c :: cs) p.url := by
      rw [hval p hp]
      exact hocc
    rcases counterVal_pos_mem (c :: cs) p.url hvp with ⟨pc, hpcm, hurl, hpcval⟩
    have hpc1 : pc.1 = p := wfUrls_inj d hwf pc.1 (hgood pc hpcm).1 p hp hurl
    rcases hex with ⟨pc0, hpc0m, hpc0v⟩
    have hocc0 : occScore pc0.1 nts = m := by
      rw [← hval pc0.1 (hgood pc0 hpc0m).1, hvm pc0 hpc0m, hpc0v]
    have hoccp : occScore p nts = pc.2 := by
      rw [hpcval, hval p hp]
    have hpceq : pc.2 = m := by
      have h1 : pc.2 ≤ m := hles pc hpcm
      have h2 : m ≤ pc.2 := by
        rw [← hocc0, ← hoccp]
        exact hmax pc0.1 (hgood pc0 hpc0m).1
      omega
    refine List.mem_map.mpr ⟨pc, List.mem_filter.mpr ⟨hpcm, by simp [hpceq]⟩, hpc1⟩

/-- **C7** (amended).  `get_candidate_matches`: when the raw name has no
parenthesized fragments and no `/` token, an exact lookup of the normalized
name is returned whenever it is non-empty.  Otherwise (or when the exact
lookup is empty), provided every token normalizes successfully, the result is
exactly the set of players attaining the maximum total occurrence score over
the deduplicated token list — each token contributing the multiplicity of its
normalized form among a player's normalized name tokens — restricted to
players with a strictly positive score. -/
theorem c7_amended_candidate_matches (d : PlayerDirectory) (name : Str) (hwf : d.wfUrls) :
    (∀ n : Str,
      extract_parenthesized_strs name = [] →
      ¬ ("/".toList ∈ splitWs (remove_parenthesized_strs name)) →
      normalize_player_name name = .ok n →
      d.lookupName n ≠ [] →
      d.get_candidate_matches name = .ok (d.lookupName n)) ∧
    (∀ nts : List Str,
      ((extract_parenthesized_strs name = [] ∧
        ¬ ("/".toList ∈ splitWs (remove_parenthesized_strs name))) →
        ∃ n, normalize_player_name name = .ok n ∧ d.lookupName n = []) →
      mapE normalize_player_name
        ((splitWs (remove_parenthesized_strs name) ++
          extract_parenthesized_strs name).dedup) = .ok nts →
      ∃ l, d.get_candidate_matches name = .ok l ∧
        ∀ p : Player, p ∈ l ↔
          (p ∈ d.players ∧ 1 ≤ occScore p nts ∧
            ∀ q ∈ d.players, occScore q nts ≤ occScore p nts)) := by
  constructor
  · intro n hpar hslash hnorm hne
    unfold PlayerDirectory.get_candidate_matches
    simp only [Bind.bind, Except.bind, hpar, hnorm]
    rw [if_pos ⟨trivial, hslash⟩]
    simp only [hnorm, pure, Except.pure]
    rw [if_pos hne]
  · intro nts hvan hmap
    unfold PlayerDirectory.get_candidate_matches
    simp only [Bind.bind, Except.bind]
    have hcore : ∀ rest : Except Unit (List Player),
        (rest = (do
          let counts ← scoreTokens d ((splitWs (remove_parenthesized_strs name) ++
            extract_parenthesized_strs name).dedup) []
          match counts with
          | [] => pure []
          | c :: cs =>
            let max_count := (cs.map (fun pc => pc.2)).foldl max c.2
            pure (((c :: cs).filter (fun pc => decide (pc.2 = max_count))).map
              (fun pc => pc.1)))) →
        ∃ l, rest = .ok l ∧
          ∀ p : Player, p ∈ l ↔
            (p ∈ d.players ∧ 1 ≤ occScore p nts ∧
              ∀ q ∈ d.players, occScore q nts ≤ occScore p nts) := by
      intro rest hrest
      rw [scoreTokens_ok d _ nts [] hmap] at hrest
      simp only [Bind.bind, Except.bind] at hrest
      rcases hc : scoreFold d nts [] with _ | ⟨c, cs⟩
      · rw [hc] at hrest
        refine ⟨[], by simpa using hrest, ?_⟩
        intro p
        simp only [List.not_mem_nil, false_iff]
        rintro ⟨hp, hocc, _⟩
        have := occScore_eq_counterVal d hwf p hp nts
        rw [hc] at this
        simp [counterVal, List.find?] at this
        omega
      · rw [hc] at hrest
        refine ⟨_, by simpa using hrest, ?_⟩
        exact candidate_core_spec d hwf nts c cs hc
    by_cases hcond : extract_parenthesized_strs name = [] ∧
        ¬ ("/".toList ∈ splitWs (remove_parenthesized_strs name))
    · rcases hvan hcond with ⟨n, hn, hempty⟩
      rw [if_pos hcond]
      simp only [hn, Bind.bind, Except.bind, pure, Except.pure]
      rw [hempty]
      rw [if_neg (by simp)]
      exact hcore _ rfl
    · rw [if_neg hcond]
      simp only [pure, Except.pure]
      rw [if_neg (by simp)]
      exact hcore _ rfl

theorem c7_amended_candidate_matches_witness :
    ∃ l, twoPlayerDirectory.get_candidate_matches "Bob (Alice) (Carol)".toList = .ok l ∧
      ∀ p : Player, p ∈ l ↔
        (p ∈ twoPlayerDirectory.players ∧
          1 ≤ occScore p ["Bob".toList, "Alice".toList, "Carol".toList] ∧
          ∀ q ∈ twoPlayerDirectory.players,
            occScore q ["Bob".toList, "Alice".toList, "Carol".toList] ≤
              occScore p ["Bob".toList, "Alice".toList, "Carol".toList]) :=
  (c7_amended_candidate_matches twoPlayerDirectory "Bob (Alice) (Carol)".toList
      (by decide)).2 ["Bob".toList, "Alice".toList, "Carol".toList]
    (fun h => absurd h.1 (by decide)) (by decide)

end NBA
